import Mathlib

/-!
Verification of the `local-jcs-store` library: a content-addressed store for
JSON documents.  The store canonicalizes a JSON value (JCS, RFC 8785), hashes
the canonical bytes with SHA-256, encodes the digest in base64 with every `/`
replaced by `+`, and persists the bytes in a file named by that address.

The embedding below models bytes and Unicode scalar values as `Nat`, byte
strings as `List Nat`, and the filesystem as an explicit state of directories
and files.  `b64sha256`, `Database.open`, `Database.put_item`,
`Database.put_obj`, `Database.get_item`, `Database.get_obj`, `Item.check_hash`
and `mk_item` are translated from `src/lib.rs`; SHA-256, base64, UTF-8, the
JCS serializer and the JSON parser model the external crates the source calls
(`openssl`, `serde_jcs`, `serde_json`), which are not part of this repository.
-/

namespace LocalJcsStore

/-- Code points of a Lean string literal, used to state concrete expected
outputs as `List Nat`. -/
def strCodes (s : String) : List Nat := s.data.map Char.toNat

/-! ## SHA-256 over byte lists

Modelled from the spec: `digest(bytes)` is "a fixed cryptographic hash
function (SHA-256) applied to the exact byte sequence; no salt, no
truncation" (the source calls `openssl::sha::Sha256`, whose code is not in
this repository).  This is the standard FIPS 180-4 algorithm on `Nat` words
reduced mod 2^32. -/

/-- 2^32, the word modulus of SHA-256. -/
def M32 : Nat := 4294967296

/-- Rotates the 32-bit word `x` right by `n` bit positions. -/
def rotr (n x : Nat) : Nat := (x / 2 ^ n + x % 2 ^ n * 2 ^ (32 - n)) % M32

/-- Bitwise complement of a 32-bit word. -/
def not32 (x : Nat) : Nat := (M32 - 1) - x % M32

/-- The 64 round constants of SHA-256 (the fractional parts of the cube
roots of the first 64 primes, FIPS 180-4 section 4.2.2), in decimal. -/
def sha256K : List Nat :=
  [1116352408, 1899447441, 3049323471, 3921009573,
   961987163, 1508970993, 2453635748, 2870763221,
   3624381080, 310598401, 607225278, 1426881987,
   1925078388, 2162078206, 2614888103, 3248222580,
   3835390401, 4022224774, 264347078, 604807628,
   770255983, 1249150122, 1555081692, 1996064986,
   2554220882, 2821834349, 2952996808, 3210313671,
   3336571891, 3584528711, 113926993, 338241895,
   666307205, 773529912, 1294757372, 1396182291,
   1695183700, 1986661051, 2177026350, 2456956037,
   2730485921, 2820302411, 3259730800, 3345764771,
   3516065817, 3600352804, 4094571909, 275423344,
   430227734, 506948616, 659060556, 883997877,
   958139571, 1322822218, 1537002063, 1747873779,
   1955562222, 2024104815, 2227730452, 2361852424,
   2428436474, 2756734187, 3204031479, 3329325298]

/-- The SHA-256 working state: eight 32-bit words. -/
structure Hs where
  a : Nat
  b : Nat
  c : Nat
  d : Nat
  e : Nat
  f : Nat
  g : Nat
  h : Nat

/-- The SHA-256 initial hash value. -/
def sha256Init : Hs :=
  ⟨0x6a09e667, 0xbb67ae85, 0x3c6ef372, 0xa54ff53a,
   0x510e527f, 0x9b05688c, 0x1f83d9ab, 0x5be0cd19⟩

/-- σ₀, the first small sigma of the message schedule. -/
def ssig0 (x : Nat) : Nat := (rotr 7 x) ^^^ (rotr 18 x) ^^^ (x / 2 ^ 3)

/-- σ₁, the second small sigma of the message schedule. -/
def ssig1 (x : Nat) : Nat := (rotr 17 x) ^^^ (rotr 19 x) ^^^ (x / 2 ^ 10)

/-- Extends the reversed message schedule by `k` further words.  The head of
`rws` is the most recently produced word. -/
def extendSchedule (rws : List Nat) : Nat → List Nat
  | 0 => rws
  | k + 1 =>
      extendSchedule
        ((ssig1 (rws.getD 1 0) + rws.getD 6 0 + ssig0 (rws.getD 14 0)
            + rws.getD 15 0) % M32 :: rws) k

/-- Packs bytes into big-endian 32-bit words. -/
def bytesToWords : List Nat → List Nat
  | b0 :: b1 :: b2 :: b3 :: rest =>
      (b0 * 16777216 + b1 * 65536 + b2 * 256 + b3) :: bytesToWords rest
  | _ => []

/-- One round of the SHA-256 compression function. -/
def round (st : Hs) (kw : Nat × Nat) : Hs :=
  let s1 := (rotr 6 st.e) ^^^ (rotr 11 st.e) ^^^ (rotr 25 st.e)
  let ch := (st.e &&& st.f) ^^^ (not32 st.e &&& st.g)
  let t1 := (st.h + s1 + ch + kw.1 + kw.2) % M32
  let s0 := (rotr 2 st.a) ^^^ (rotr 13 st.a) ^^^ (rotr 22 st.a)
  let mj := (st.a &&& st.b) ^^^ (st.a &&& st.c) ^^^ (st.b &&& st.c)
  let t2 := (s0 + mj) % M32
  ⟨(t1 + t2) % M32, st.a, st.b, st.c, (st.d + t1) % M32, st.e, st.f, st.g⟩

/-- Compresses one 64-byte block into the running state. -/
def compressBlock (st : Hs) (block : List Nat) : Hs :=
  let w16 := bytesToWords block
  let ws := (extendSchedule w16.reverse 48).reverse
  let fin := (sha256K.zip ws).foldl round st
  ⟨(st.a + fin.a) % M32, (st.b + fin.b) % M32, (st.c + fin.c) % M32,
   (st.d + fin.d) % M32, (st.e + fin.e) % M32, (st.f + fin.f) % M32,
   (st.g + fin.g) % M32, (st.h + fin.h) % M32⟩

/-- Processes the padded message 64 bytes at a time.  The fuel argument only
bounds the recursion depth; it is instantiated with the message length, which
always suffices since each step consumes 64 bytes. -/
def processBlocksAux : Nat → List Nat → Hs → Hs
  | _, [], st => st
  | 0, _ :: _, st => st
  | fuel + 1, b :: rest, st =>
      processBlocksAux fuel (rest.drop 63) (compressBlock st ((b :: rest).take 64))

/-- SHA-256 padding: a `0x80` byte, zeros to 56 mod 64, and the bit length as
eight big-endian bytes. -/
def shaPad (msg : List Nat) : List Nat :=
  let bits := msg.length * 8
  msg ++ 128 :: List.replicate ((119 - msg.length % 64) % 64) 0
      ++ [bits / 2 ^ 56 % 256, bits / 2 ^ 48 % 256, bits / 2 ^ 40 % 256,
          bits / 2 ^ 32 % 256, bits / 2 ^ 24 % 256, bits / 2 ^ 16 % 256,
          bits / 2 ^ 8 % 256, bits % 256]

/-- Serializes a 32-bit word as four big-endian bytes. -/
def wordBytes (w : Nat) : List Nat :=
  [w / 16777216 % 256, w / 65536 % 256, w / 256 % 256, w % 256]

/-- The final digest: the eight state words, big-endian. -/
def Hs.toBytes (s : Hs) : List Nat :=
  wordBytes s.a ++ wordBytes s.b ++ wordBytes s.c ++ wordBytes s.d
    ++ wordBytes s.e ++ wordBytes s.f ++ wordBytes s.g ++ wordBytes s.h

/-- Modelled from the spec: `digest(bytes)`, SHA-256 applied to the exact
byte sequence — the source calls `openssl::sha::Sha256`, which is not part
of this repository.  Returns the 32-byte digest. -/
def sha256 (msg : List Nat) : List Nat :=
  (processBlocksAux (shaPad msg).length (shaPad msg) sha256Init).toBytes

/-! ## Base64

Modelled from the spec: `encode_address` uses "standard base64 encoding (with
padding)" (the source calls `openssl::base64::encode_block`, whose code is
not in this repository). -/

/-- The 64 characters of the standard base64 alphabet, as code points. -/
def b64Alphabet : List Nat :=
  strCodes "ABCDEFGHIJKLMNOPQRSTUVWXYZabcdefghijklmnopqrstuvwxyz0123456789+/"

/-- The base64 character for a 6-bit group. -/
def b64Char (n : Nat) : Nat := b64Alphabet.getD n 0

/-- Modelled from the spec: standard base64 encoding with `=` padding — the
source calls `openssl::base64::encode_block`, which is not part of this
repository.  Bytes in, code points out. -/
def base64Encode : List Nat → List Nat
  | [] => []
  | [b0] => [b64Char (b0 / 4 % 64), b64Char (b0 % 4 * 16), 61, 61]
  | [b0, b1] =>
      [b64Char (b0 / 4 % 64), b64Char (b0 % 4 * 16 + b1 / 16 % 16),
       b64Char (b1 % 16 * 4), 61]
  | b0 :: b1 :: b2 :: rest =>
      b64Char (b0 / 4 % 64) :: b64Char (b0 % 4 * 16 + b1 / 16 % 16)
        :: b64Char (b1 % 16 * 4 + b2 / 64 % 4) :: b64Char (b2 % 64)
        :: base64Encode rest

/-- The `/` to `+` substitution applied to every output character
(`hash.replace` in the source, line 22 of `src/lib.rs`). -/
def slashToPlus (c : Nat) : Nat := if c = 47 then 43 else c

/-- `b64sha256` from `src/lib.rs` lines 18-24: SHA-256, then base64, then the
global `/` to `+` replacement. -/
def b64sha256 (bytes : List Nat) : List Nat :=
  (base64Encode (sha256 bytes)).map slashToPlus

/-! ## UTF-8

`get_item` decodes the bytes read from disk with `String::from_utf8` and
`put_item` writes `json_utf8.as_bytes()`.  Strings are modelled as lists of
Unicode scalar values; the codec below is standard strict UTF-8 (RFC 3629):
the decoder rejects overlong forms, surrogates, values above U+10FFFF and
truncated sequences, exactly as Rust's `String::from_utf8` does. -/

/-- A Unicode scalar value: below U+110000 and not a surrogate. -/
def ValidScalar (c : Nat) : Prop := c < 1114112 ∧ ¬(55296 ≤ c ∧ c < 57344)

instance (c : Nat) : Decidable (ValidScalar c) := by
  unfold ValidScalar; infer_instance

/-- UTF-8 encoding of one scalar value. -/
def utf8EncodeChar (c : Nat) : List Nat :=
  if c < 128 then [c]
  else if c < 2048 then [192 + c / 64, 128 + c % 64]
  else if c < 65536 then [224 + c / 4096, 128 + c / 64 % 64, 128 + c % 64]
  else [240 + c / 262144, 128 + c / 4096 % 64, 128 + c / 64 % 64, 128 + c % 64]

/-- UTF-8 encoding of a string (a list of scalar values). -/
def utf8Encode (s : List Nat) : List Nat := (s.map utf8EncodeChar).flatten

/-- Whether a byte is a UTF-8 continuation byte. -/
def IsCont (b : Nat) : Prop := 128 ≤ b ∧ b < 192

instance (b : Nat) : Decidable (IsCont b) := by
  unfold IsCont; infer_instance

/-- Decodes one scalar value from the front of a byte list, strictly. -/
def utf8DecodeOne : List Nat → Option (Nat × List Nat)
  | [] => none
  | b :: rest =>
      if b < 128 then some (b, rest)
      else if b < 194 then none
      else if b < 224 then
        match rest with
        | b1 :: r =>
            if IsCont b1 then some ((b - 192) * 64 + (b1 - 128), r) else none
        | [] => none
      else if b < 240 then
        match rest with
        | b1 :: b2 :: r =>
            if IsCont b1 ∧ IsCont b2 then
              let c := (b - 224) * 4096 + (b1 - 128) * 64 + (b2 - 128)
              if 2048 ≤ c ∧ ¬(55296 ≤ c ∧ c < 57344) then some (c, r) else none
            else none
        | _ => none
      else if b < 245 then
        match rest with
        | b1 :: b2 :: b3 :: r =>
            if IsCont b1 ∧ IsCont b2 ∧ IsCont b3 then
              let c := (b - 240) * 262144 + (b1 - 128) * 4096
                  + (b2 - 128) * 64 + (b3 - 128)
              if 65536 ≤ c ∧ c < 1114112 then some (c, r) else none
            else none
        | _ => none
      else none

/-- Decodes a whole byte list, with fuel bounding the number of characters. -/
def utf8DecodeAux : Nat → List Nat → Option (List Nat)
  | _, [] => some []
  | 0, _ :: _ => none
  | fuel + 1, l =>
      match utf8DecodeOne l with
      | none => none
      | some (c, rest) =>
          match utf8DecodeAux fuel rest with
          | none => none
          | some s => some (c :: s)

/-- Modelled from the spec's read path: `String::from_utf8` from the Rust
standard library, which is not part of this repository — strict UTF-8
decoding of a byte list. -/
def utf8Decode (bytes : List Nat) : Option (List Nat) :=
  utf8DecodeAux bytes.length bytes

/-- Decoding inverts encoding at a single valid scalar value. -/
theorem utf8DecodeOne_encodeChar (c : Nat) (hc : ValidScalar c) (rest : List Nat) :
    utf8DecodeOne (utf8EncodeChar c ++ rest) = some (c, rest) := by
  obtain ⟨h1, h2⟩ := hc
  unfold utf8EncodeChar
  by_cases ha : c < 128
  · simp [ha, utf8DecodeOne]
  · by_cases hb : c < 2048
    · have e1 : ¬(192 + c / 64 < 128) := by omega
      have e2 : ¬(192 + c / 64 < 194) := by omega
      have e3 : 192 + c / 64 < 224 := by omega
      have e4 : IsCont (128 + c % 64) := by unfold IsCont; omega
      simp [ha, hb, utf8DecodeOne, e1, e2, e3, e4]
      omega
    · by_cases hcc : c < 65536
      · have e1 : ¬(224 + c / 4096 < 128) := by omega
        have e2 : ¬(224 + c / 4096 < 194) := by omega
        have e3 : ¬(224 + c / 4096 < 224) := by omega
        have e4 : 224 + c / 4096 < 240 := by omega
        have e5 : IsCont (128 + c / 64 % 64) := by unfold IsCont; omega
        have e6 : IsCont (128 + c % 64) := by unfold IsCont; omega
        have e7 : (224 + c / 4096 - 224) * 4096 + (128 + c / 64 % 64 - 128) * 64
            + (128 + c % 64 - 128) = c := by omega
        simp [ha, hb, hcc, utf8DecodeOne, e1, e2, e3, e4, e5, e6, e7]
        omega
      · have e1 : ¬(240 + c / 262144 < 128) := by omega
        have e2 : ¬(240 + c / 262144 < 194) := by omega
        have e3 : ¬(240 + c / 262144 < 224) := by omega
        have e4 : ¬(240 + c / 262144 < 240) := by omega
        have e5 : 240 + c / 262144 < 245 := by omega
        have e6 : IsCont (128 + c / 4096 % 64) := by unfold IsCont; omega
        have e7 : IsCont (128 + c / 64 % 64) := by unfold IsCont; omega
        have e8 : IsCont (128 + c % 64) := by unfold IsCont; omega
        have e9 : (240 + c / 262144 - 240) * 262144 + (128 + c / 4096 % 64 - 128) * 4096
            + (128 + c / 64 % 64 - 128) * 64 + (128 + c % 64 - 128) = c := by omega
        simp [ha, hb, hcc, utf8DecodeOne, e1, e2, e3, e4, e5, e6, e7, e8, e9]
        omega

/-- A successful single-character decode consumes at least one byte and
reconstructs exactly the bytes consumed; the scalar produced is valid. -/
theorem utf8DecodeOne_inv {l : List Nat} {c : Nat} {rest : List Nat}
    (h : utf8DecodeOne l = some (c, rest)) :
    utf8EncodeChar c ++ rest = l ∧ ValidScalar c ∧ rest.length < l.length := by
  match l with
  | [] => simp [utf8DecodeOne] at h
  | b :: tl =>
    unfold utf8DecodeOne at h
    by_cases h1 : b < 128
    · simp [h1] at h
      obtain ⟨hc, hr⟩ := h
      subst hc; subst hr
      refine ⟨by simp [utf8EncodeChar, h1], ⟨by omega, by omega⟩, by simp⟩
    · by_cases h2 : b < 194
      · simp [h1, h2] at h
      · by_cases h3 : b < 224
        · match tl with
          | [] => simp [h1, h2, h3] at h
          | b1 :: r =>
            by_cases h4 : IsCont b1
            · simp [h1, h2, h3, h4] at h
              obtain ⟨hc, hr⟩ := h
              have hb1 : 128 ≤ b1 ∧ b1 < 192 := h4
              subst hc; subst hr
              constructor
              · have c1 : ¬((b - 192) * 64 + (b1 - 128) < 128) := by omega
                have c2 : (b - 192) * 64 + (b1 - 128) < 2048 := by omega
                simp [utf8EncodeChar, c1, c2]
                omega
              · exact ⟨⟨by omega, by omega⟩, by simp; omega⟩
            · simp [h1, h2, h3, h4] at h
        · by_cases h5 : b < 240
          · match tl with
            | [] => simp [h1, h2, h3, h5] at h
            | [b1] => simp [h1, h2, h3, h5] at h
            | b1 :: b2 :: r =>
              by_cases h6 : IsCont b1 ∧ IsCont b2
              · by_cases h7 : 2048 ≤ (b - 224) * 4096 + (b1 - 128) * 64 + (b2 - 128)
                    ∧ ¬(55296 ≤ (b - 224) * 4096 + (b1 - 128) * 64 + (b2 - 128)
                        ∧ (b - 224) * 4096 + (b1 - 128) * 64 + (b2 - 128) < 57344)
                · simp [h1, h2, h3, h5, h6, h7] at h
                  obtain ⟨hc, hr⟩ := h
                  obtain ⟨⟨g1, g2⟩, ⟨g3, g4⟩⟩ := h6
                  subst hc; subst hr
                  constructor
                  · have c1 : ¬((b - 224) * 4096 + (b1 - 128) * 64 + (b2 - 128) < 128) := by
                      omega
                    have c2 : ¬((b - 224) * 4096 + (b1 - 128) * 64 + (b2 - 128) < 2048) := by
                      omega
                    have c3 : (b - 224) * 4096 + (b1 - 128) * 64 + (b2 - 128) < 65536 := by
                      omega
                    simp [utf8EncodeChar, c1, c2, c3]
                    omega
                  · exact ⟨⟨by omega, by omega⟩, by simp; omega⟩
                · simp [h1, h2, h3, h5, h6] at h
                  obtain ⟨h9, _, _⟩ := h
                  exact absurd h9 (by omega)
              · simp [h1, h2, h3, h5, h6] at h
          · by_cases h8 : b < 245
            · match tl with
              | [] => simp [h1, h2, h3, h5, h8] at h
              | [b1] => simp [h1, h2, h3, h5, h8] at h
              | [b1, b2] => simp [h1, h2, h3, h5, h8] at h
              | b1 :: b2 :: b3 :: r =>
                by_cases h6 : IsCont b1 ∧ IsCont b2 ∧ IsCont b3
                · by_cases h7 : 65536 ≤ (b - 240) * 262144 + (b1 - 128) * 4096
                      + (b2 - 128) * 64 + (b3 - 128)
                      ∧ (b - 240) * 262144 + (b1 - 128) * 4096
                        + (b2 - 128) * 64 + (b3 - 128) < 1114112
                  · simp [h1, h2, h3, h5, h8, h6, h7] at h
                    obtain ⟨hc, hr⟩ := h
                    obtain ⟨⟨g1, g2⟩, ⟨g3, g4⟩, ⟨g5, g6⟩⟩ := h6
                    subst hc; subst hr
                    constructor
                    · have c1 : ¬((b - 240) * 262144 + (b1 - 128) * 4096 + (b2 - 128) * 64
                          + (b3 - 128) < 128) := by omega
                      have c2 : ¬((b - 240) * 262144 + (b1 - 128) * 4096 + (b2 - 128) * 64
                          + (b3 - 128) < 2048) := by omega
                      have c3 : ¬((b - 240) * 262144 + (b1 - 128) * 4096 + (b2 - 128) * 64
                          + (b3 - 128) < 65536) := by omega
                      simp [utf8EncodeChar, c1, c2, c3]
                      omega
                    · exact ⟨⟨by omega, by omega⟩, by simp; omega⟩
                  · simp [h1, h2, h3, h5, h8, h6] at h
                    obtain ⟨h9, _, _⟩ := h
                    exact absurd h9 (by omega)
                · simp [h1, h2, h3, h5, h8, h6] at h
            · simp [h1, h2, h3, h5, h8] at h

/-- A scalar value encodes to at least one byte. -/
theorem utf8EncodeChar_ne_nil (c : Nat) : utf8EncodeChar c ≠ [] := by
  unfold utf8EncodeChar
  split
  · simp
  · split
    · simp
    · split <;> simp

/-- Decoding inverts encoding on strings of valid scalars, for any
sufficient fuel. -/
theorem utf8DecodeAux_encode (s : List Nat) (hs : ∀ c ∈ s, ValidScalar c) :
    ∀ fuel, s.length ≤ fuel → utf8DecodeAux fuel (utf8Encode s) = some s := by
  induction s with
  | nil => intro fuel _; cases fuel <;> simp [utf8Encode, utf8DecodeAux]
  | cons c tl ih =>
    intro fuel hf
    match fuel with
    | 0 => simp at hf
    | fuel + 1 =>
      have hc : ValidScalar c := hs c (by simp)
      have hstep := utf8DecodeOne_encodeChar c hc (utf8Encode tl)
      have hrec := ih (fun d hd => hs d (by simp [hd])) fuel (by simpa using hf)
      show utf8DecodeAux (fuel + 1) (utf8Encode (c :: tl)) = some (c :: tl)
      have henc : utf8Encode (c :: tl) = utf8EncodeChar c ++ utf8Encode tl := by
        simp [utf8Encode]
      match hx : utf8EncodeChar c with
      | [] => exact absurd hx (utf8EncodeChar_ne_nil c)
      | x :: xs =>
        rw [hx] at hstep
        rw [henc, hx]
        show utf8DecodeAux (fuel + 1) (x :: (xs ++ utf8Encode tl)) = some (c :: tl)
        unfold utf8DecodeAux
        rw [show x :: (xs ++ utf8Encode tl) = (x :: xs) ++ utf8Encode tl from rfl,
          hstep]
        simp [hrec]

/-- A string never encodes to fewer bytes than it has scalar values. -/
theorem utf8Encode_length_ge (s : List Nat) : s.length ≤ (utf8Encode s).length := by
  induction s with
  | nil => simp [utf8Encode]
  | cons c tl ih =>
    have h1 : 1 ≤ (utf8EncodeChar c).length := by
      cases hh : utf8EncodeChar c with
      | nil => exact absurd hh (utf8EncodeChar_ne_nil c)
      | cons _ _ => simp
    have henc : utf8Encode (c :: tl) = utf8EncodeChar c ++ utf8Encode tl := by
      simp [utf8Encode]
    rw [henc]
    simp only [List.length_append, List.length_cons]
    omega

/-- `utf8Decode` inverts `utf8Encode` on strings of valid scalar values. -/
theorem utf8Decode_encode (s : List Nat) (hs : ∀ c ∈ s, ValidScalar c) :
    utf8Decode (utf8Encode s) = some s :=
  utf8DecodeAux_encode s hs (utf8Encode s).length (utf8Encode_length_ge s)

/-- Any successful decode re-encodes to exactly the bytes decoded, and every
scalar produced is valid: the strict decoder accepts only canonical UTF-8. -/
theorem utf8DecodeAux_inv : ∀ (fuel : Nat) (l s : List Nat),
    utf8DecodeAux fuel l = some s →
    utf8Encode s = l ∧ ∀ c ∈ s, ValidScalar c := by
  intro fuel
  induction fuel with
  | zero =>
    intro l s h
    match l with
    | [] =>
      simp [utf8DecodeAux] at h
      subst h
      exact ⟨by simp [utf8Encode], by simp⟩
    | _ :: _ => simp [utf8DecodeAux] at h
  | succ fuel ih =>
    intro l s h
    match l with
    | [] =>
      simp [utf8DecodeAux] at h
      subst h
      exact ⟨by simp [utf8Encode], by simp⟩
    | b :: tl =>
      unfold utf8DecodeAux at h
      split at h
      next heq => exact absurd h (by simp)
      next c rest heq =>
        split at h
        next heq2 => exact absurd h (by simp)
        next s2 heq2 =>
          simp at h
          subst h
          obtain ⟨henc, hval, _⟩ := utf8DecodeOne_inv heq
          obtain ⟨henc2, hval2⟩ := ih rest s2 heq2
          constructor
          · rw [← henc, ← henc2]; simp [utf8Encode]
          · intro d hd
            rw [List.mem_cons] at hd
            rcases hd with hd | hd
            · subst hd; exact hval
            · exact hval2 d hd

/-- `utf8Decode bytes = some s` forces `bytes` to be the canonical encoding
of `s`: what `get_item` hashes after decoding is exactly what it read. -/
theorem utf8Decode_inv {bytes s : List Nat} (h : utf8Decode bytes = some s) :
    utf8Encode s = bytes ∧ ∀ c ∈ s, ValidScalar c :=
  utf8DecodeAux_inv bytes.length bytes s h

/-! ## Decimal digits

JCS serializes integers as plain decimal (RFC 8785 numeric canonical form,
restricted here to integer values, the only numbers the claims exercise). -/

/-- The decimal digits of `n`, most significant first, as code points.  The
fuel argument only bounds recursion depth; `n + 1` always suffices. -/
def natDigitsAux : Nat → Nat → List Nat
  | 0, _ => []
  | fuel + 1, n =>
      if n < 10 then [48 + n] else natDigitsAux fuel (n / 10) ++ [48 + n % 10]

/-- Decimal representation of a natural number, as code points. -/
def natDigits (n : Nat) : List Nat := natDigitsAux (n + 1) n

/-- Consumes leading decimal digits, accumulating their value. -/
def takeDigits : List Nat → Nat → Nat × List Nat
  | [], acc => (acc, [])
  | c :: rest, acc =>
      if 48 ≤ c ∧ c ≤ 57 then takeDigits rest (acc * 10 + (c - 48))
      else (acc, c :: rest)

/-- The list does not start with a decimal digit. -/
def NoDigitHead : List Nat → Prop
  | [] => True
  | c :: _ => ¬(48 ≤ c ∧ c ≤ 57)

instance (l : List Nat) : Decidable (NoDigitHead l) := by
  cases l <;> (unfold NoDigitHead; infer_instance)

/-- Parses a natural number: one or more digits, no leading zero (mirrors
`serde_json`, which rejects `01`). -/
def parseNat : List Nat → Option (Nat × List Nat)
  | [] => none
  | c :: rest =>
      if 48 ≤ c ∧ c ≤ 57 then
        if c = 48 then
          match rest with
          | d :: _ => if 48 ≤ d ∧ d ≤ 57 then none else some (0, rest)
          | [] => some (0, [])
        else some (takeDigits rest (c - 48))
      else none

theorem takeDigits_noDigit (rest : List Nat) (acc : Nat) (h : NoDigitHead rest) :
    takeDigits rest acc = (acc, rest) := by
  cases rest with
  | nil => rfl
  | cons c tl => simp [takeDigits, NoDigitHead] at h ⊢; omega

theorem takeDigits_append : ∀ (fuel n acc : Nat) (rest : List Nat), n < fuel →
    takeDigits (natDigitsAux fuel n ++ rest) acc
      = takeDigits rest (acc * 10 ^ (natDigitsAux fuel n).length + n) := by
  intro fuel
  induction fuel with
  | zero => intro n acc rest h; omega
  | succ fuel ih =>
    intro n acc rest h
    by_cases h10 : n < 10
    · have hd : 48 ≤ 48 + n ∧ 48 + n ≤ 57 := by omega
      have e1 : natDigitsAux (fuel + 1) n = [48 + n] := by simp [natDigitsAux, h10]
      rw [e1, show ([48 + n] : List Nat) ++ rest = (48 + n) :: rest from rfl]
      have e2 : takeDigits ((48 + n) :: rest) acc
          = takeDigits rest (acc * 10 + (48 + n - 48)) := by simp [takeDigits, hd]
      rw [e2]
      have e3 : acc * 10 + (48 + n - 48)
          = acc * 10 ^ ([48 + n] : List Nat).length + n := by
        simp
      rw [e3]
    · have hlt : n / 10 < fuel := by omega
      have hrw : natDigitsAux (fuel + 1) n
          = natDigitsAux fuel (n / 10) ++ [48 + n % 10] := by
        simp [natDigitsAux, h10]
      rw [hrw]
      rw [List.append_assoc, List.cons_append, List.nil_append,
        ih (n / 10) acc ((48 + n % 10) :: rest) hlt]
      have hd : 48 ≤ 48 + n % 10 ∧ 48 + n % 10 ≤ 57 := by omega
      have e2 : takeDigits ((48 + n % 10) :: rest)
            (acc * 10 ^ (natDigitsAux fuel (n / 10)).length + n / 10)
          = takeDigits rest
            ((acc * 10 ^ (natDigitsAux fuel (n / 10)).length + n / 10) * 10
              + (48 + n % 10 - 48)) := by
        simp [takeDigits, hd]
      rw [e2]
      have e3 : (acc * 10 ^ (natDigitsAux fuel (n / 10)).length + n / 10) * 10
            + (48 + n % 10 - 48)
          = acc * 10 ^ ((natDigitsAux fuel (n / 10)).length + 1) + n := by
        have e4 : 48 + n % 10 - 48 = n % 10 := by omega
        rw [e4, pow_succ]
        have e5 : (acc * 10 ^ (natDigitsAux fuel (n / 10)).length + n / 10) * 10
            = acc * (10 ^ (natDigitsAux fuel (n / 10)).length * 10) + n / 10 * 10 := by
          ring
        rw [e5, Nat.add_assoc]
        congr 1
        omega
      rw [e3]
      have e6 : (natDigitsAux fuel (n / 10) ++ [48 + n % 10]).length
          = (natDigitsAux fuel (n / 10)).length + 1 := by simp
      rw [e6]

/-- The leading digit: always a digit, and nonzero when `n` is positive. -/
theorem natDigitsAux_head : ∀ (fuel n : Nat), n < fuel →
    ∃ d t, natDigitsAux fuel n = d :: t ∧ 48 ≤ d ∧ d ≤ 57 ∧ (0 < n → 49 ≤ d) := by
  intro fuel
  induction fuel with
  | zero => intro n h; omega
  | succ fuel ih =>
    intro n h
    by_cases h10 : n < 10
    · exact ⟨48 + n, [], by simp [natDigitsAux, h10], by omega, by omega, by omega⟩
    · have hlt : n / 10 < fuel := by omega
      obtain ⟨d, t, hdt, hd1, hd2, hd3⟩ := ih (n / 10) hlt
      refine ⟨d, t ++ [48 + n % 10], ?_, hd1, hd2, fun _ => hd3 (by omega)⟩
      simp [natDigitsAux, h10, hdt]

/-- Parsing inverts decimal serialization when no digit follows. -/
theorem parseNat_natDigits (n : Nat) (rest : List Nat) (h : NoDigitHead rest) :
    parseNat (natDigits n ++ rest) = some (n, rest) := by
  by_cases hz : n = 0
  · subst hz
    show parseNat ((48 :: []) ++ rest) = some (0, rest)
    cases rest with
    | nil => rfl
    | cons d tl =>
      simp [NoDigitHead] at h
      simp [parseNat]
      omega
  · obtain ⟨d, t, hdt, hd1, hd2, hd3⟩ := natDigitsAux_head (n + 1) n (by omega)
    have hd3 := hd3 (by omega)
    have hfull := takeDigits_append (n + 1) n 0 rest (by omega)
    rw [takeDigits_noDigit rest _ h] at hfull
    unfold natDigits
    rw [hdt] at hfull ⊢
    have hstep : takeDigits ((d :: t) ++ rest) 0 = takeDigits (t ++ rest) (d - 48) := by
      have hd : 48 ≤ d ∧ d ≤ 57 := ⟨hd1, hd2⟩
      simp [takeDigits, hd]
    rw [hstep] at hfull
    have : parseNat ((d :: t) ++ rest) = some (takeDigits (t ++ rest) (d - 48)) := by
      have hdig : 48 ≤ d ∧ d ≤ 57 := ⟨hd1, hd2⟩
      have hnz : ¬(d = 48) := by omega
      simp [parseNat, hdig, hnz]
    rw [this, hfull]
    simp

/-! ## JCS string escaping and the string parser

RFC 8785 minimal escaping: `"` and `\` are escaped with a backslash, the
control characters U+0008, U+0009, U+000A, U+000C, U+000D use their short
forms, other control characters use `\u00xx` with lowercase hex, and every
other scalar value is emitted literally. -/

/-- Lowercase hexadecimal digit for a value below 16. -/
def hexDigit (n : Nat) : Nat := if n < 10 then 48 + n else 87 + n

/-- Value of a hexadecimal digit character. -/
def hexVal (c : Nat) : Option Nat :=
  if 48 ≤ c ∧ c ≤ 57 then some (c - 48)
  else if 97 ≤ c ∧ c ≤ 102 then some (c - 87)
  else if 65 ≤ c ∧ c ≤ 70 then some (c - 55)
  else none

theorem hexVal_hexDigit (n : Nat) (h : n < 16) : hexVal (hexDigit n) = some n := by
  unfold hexDigit hexVal
  by_cases h10 : n < 10
  · simp [h10]; omega
  · have h1 : ¬(48 ≤ 87 + n ∧ 87 + n ≤ 57) := by omega
    have h2 : 97 ≤ 87 + n ∧ 87 + n ≤ 102 := by omega
    simp [h10, h1, h2]

/-- JCS escaping of one scalar value. -/
def escapeChar (c : Nat) : List Nat :=
  if c = 34 then [92, 34]
  else if c = 92 then [92, 92]
  else if c = 8 then [92, 98]
  else if c = 9 then [92, 116]
  else if c = 10 then [92, 110]
  else if c = 12 then [92, 102]
  else if c = 13 then [92, 114]
  else if c < 32 then [92, 117, 48, 48, hexDigit (c / 16), hexDigit (c % 16)]
  else [c]

/-- JCS escaping of a whole string. -/
def escString (s : List Nat) : List Nat := (s.map escapeChar).flatten

/-- A JCS string literal: quote, escaped body, quote. -/
def serStr (s : List Nat) : List Nat := 34 :: escString s ++ [34]

/-- Decodes a two-character escape (everything but `\u`). -/
def unescape (e : Nat) : Option Nat :=
  if e = 34 then some 34
  else if e = 92 then some 92
  else if e = 47 then some 47
  else if e = 98 then some 8
  else if e = 116 then some 9
  else if e = 110 then some 10
  else if e = 102 then some 12
  else if e = 114 then some 13
  else none

/-- Parses a string body up to the closing quote: literal characters,
two-character escapes and `\u` escapes (lone surrogates rejected), raw
control characters refused, as `serde_json` does.  Fuel bounds the number of
characters produced; the input length suffices. -/
def psb : Nat → List Nat → Option (List Nat × List Nat)
  | 0, _ => none
  | fuel + 1, input =>
      match input with
      | [] => none
      | c :: rest =>
          if c = 34 then some ([], rest)
          else if c = 92 then
            match rest with
            | [] => none
            | e :: rest2 =>
                if e = 117 then
                  match rest2 with
                  | h1 :: h2 :: h3 :: h4 :: rest3 =>
                      match hexVal h1, hexVal h2, hexVal h3, hexVal h4 with
                      | some a, some b, some c2, some d =>
                          let n := ((a * 16 + b) * 16 + c2) * 16 + d
                          if 55296 ≤ n ∧ n < 57344 then none
                          else (psb fuel rest3).map fun p => (n :: p.1, p.2)
                      | _, _, _, _ => none
                  | _ => none
                else
                  (unescape e).bind fun u =>
                    (psb fuel rest2).map fun p => (u :: p.1, p.2)
          else if c < 32 then none
          else (psb fuel rest).map fun p => (c :: p.1, p.2)

/-- Stepping the string parser over one escaped character. -/
theorem psb_escapeChar (c fuel : Nat) (tail : List Nat) :
    psb (fuel + 1) (escapeChar c ++ tail)
      = (psb fuel tail).map fun p => (c :: p.1, p.2) := by
  unfold escapeChar
  by_cases e34 : c = 34
  · subst e34; simp [psb, unescape]
  · by_cases e92 : c = 92
    · subst e92; simp [psb, unescape]
    · by_cases e8 : c = 8
      · subst e8; simp [psb, unescape]
      · by_cases e9 : c = 9
        · subst e9; simp [psb, unescape]
        · by_cases e10 : c = 10
          · subst e10; simp [psb, unescape]
          · by_cases e12 : c = 12
            · subst e12; simp [psb, unescape]
            · by_cases e13 : c = 13
              · subst e13; simp [psb, unescape]
              · by_cases ectl : c < 32
                · have hh : hexVal (hexDigit (c / 16)) = some (c / 16) :=
                    hexVal_hexDigit _ (by omega)
                  have hl : hexVal (hexDigit (c % 16)) = some (c % 16) :=
                    hexVal_hexDigit _ (by omega)
                  have hv : hexVal 48 = some 0 := by simp [hexVal]
                  have hns : ¬(55296 ≤ c / 16 * 16 + c % 16
                      ∧ c / 16 * 16 + c % 16 < 57344) := by omega
                  have hc : c / 16 * 16 + c % 16 = c := by omega
                  simp [e34, e92, e8, e9, e10, e12, e13, ectl, psb, hh, hl, hv, hns, hc]
                  intro h1 _
                  exact absurd h1 (by omega)
                · simp [e34, e92, e8, e9, e10, e12, e13, ectl, psb]

/-- The string parser inverts JCS escaping. -/
theorem psb_escString (s : List Nat) : ∀ (fuel : Nat) (rest : List Nat),
    s.length + 1 ≤ fuel → psb fuel (escString s ++ 34 :: rest) = some (s, rest) := by
  induction s with
  | nil =>
    intro fuel rest h
    match fuel with
    | fuel + 1 => simp [escString, psb]
  | cons c tl ih =>
    intro fuel rest h
    match fuel with
    | fuel + 1 =>
      have hesc : escString (c :: tl) = escapeChar c ++ escString tl := by
        simp [escString]
      rw [hesc, List.append_assoc, psb_escapeChar,
        ih fuel rest (by simp at h; omega)]
      rfl

/-- Escaping a character always produces at least one character. -/
theorem escapeChar_ne_nil (c : Nat) : escapeChar c ≠ [] := by
  unfold escapeChar
  repeat' split
  all_goals simp

/-- Escaping never shortens a string. -/
theorem escString_length_ge (s : List Nat) : s.length ≤ (escString s).length := by
  induction s with
  | nil => simp [escString]
  | cons c tl ih =>
    have h1 : 1 ≤ (escapeChar c).length := by
      cases hh : escapeChar c with
      | nil => exact absurd hh (escapeChar_ne_nil c)
      | cons _ _ => simp
    have hesc : escString (c :: tl) = escapeChar c ++ escString tl := by
      simp [escString]
    rw [hesc]
    simp only [List.length_append, List.length_cons]
    omega

/-! ## JSON values

The model of `serde_json::Value`, with strings as lists of Unicode scalar
values.  Numbers are restricted to integers: the claims never exercise
non-integer numbers, and IEEE-754 formatting is outside this embedding. -/

inductive Value where
  | vnull
  | vbool (b : Bool)
  | vnum (n : Int)
  | vstr (s : List Nat)
  | varr (xs : List Value)
  | vobj (kvs : List (List Nat × Value))

/-- Code-point lexicographic order on strings, the JCS member-ordering key
(the spec: "object members sorted by key using code-point ordering"). -/
def lexLe : List Nat → List Nat → Bool
  | x :: xs, y :: ys =>
      if x < y then true
      else if y < x then false
      else lexLe xs ys
  | [], _ => true
  | _ :: _, [] => false

/-- The member order used by the canonicalizer: compare keys. -/
def keyLe (x y : List Nat × Value) : Prop := lexLe x.1 y.1 = true

instance : DecidableRel keyLe := fun x y => by unfold keyLe; infer_instance

theorem lexLe_cons (x y : Nat) (xs ys : List Nat) :
    lexLe (x :: xs) (y :: ys)
      = if x < y then true else if y < x then false else lexLe xs ys := rfl

theorem lexLe_total : ∀ a b : List Nat, lexLe a b = true ∨ lexLe b a = true := by
  intro a
  induction a with
  | nil => intro b; left; rfl
  | cons x xs ih =>
    intro b
    cases b with
    | nil => right; rfl
    | cons y ys =>
      rcases Nat.lt_trichotomy x y with h | h | h
      · left; rw [lexLe_cons, if_pos h]
      · subst h
        have hx : ¬(x < x) := by omega
        rcases ih ys with h2 | h2
        · left; rw [lexLe_cons, if_neg hx, if_neg hx]; exact h2
        · right; rw [lexLe_cons, if_neg hx, if_neg hx]; exact h2
      · right; rw [lexLe_cons, if_pos h]

theorem lexLe_trans : ∀ a b c : List Nat,
    lexLe a b = true → lexLe b c = true → lexLe a c = true := by
  intro a
  induction a with
  | nil => intro b c _ _; rfl
  | cons x xs ih =>
    intro b c hab hbc
    cases b with
    | nil => simp [lexLe] at hab
    | cons y ys =>
      cases c with
      | nil => simp [lexLe] at hbc
      | cons z zs =>
        rw [lexLe_cons] at hab hbc ⊢
        rcases Nat.lt_trichotomy x y with h1 | h1 | h1
        · rcases Nat.lt_trichotomy y z with h2 | h2 | h2
          · rw [if_pos (by omega : x < z)]
          · subst h2; rw [if_pos h1]
          · rw [if_neg (by omega), if_pos h2] at hbc; simp at hbc
        · subst h1
          rw [if_neg (by omega), if_neg (by omega)] at hab
          rcases Nat.lt_trichotomy x z with h2 | h2 | h2
          · rw [if_pos h2]
          · subst h2
            rw [if_neg (by omega), if_neg (by omega)] at hbc ⊢
            exact ih ys zs hab hbc
          · rw [if_neg (by omega), if_pos h2] at hbc; simp at hbc
        · rw [if_neg (by omega), if_pos h1] at hab; simp at hab

theorem lexLe_antisymm : ∀ a b : List Nat,
    lexLe a b = true → lexLe b a = true → a = b := by
  intro a
  induction a with
  | nil =>
    intro b _ hba
    cases b with
    | nil => rfl
    | cons y ys => simp [lexLe] at hba
  | cons x xs ih =>
    intro b hab hba
    cases b with
    | nil => simp [lexLe] at hab
    | cons y ys =>
      rw [lexLe_cons] at hab hba
      rcases Nat.lt_trichotomy x y with h | h | h
      · rw [if_neg (by omega), if_pos h] at hba; simp at hba
      · subst h
        rw [if_neg (by omega), if_neg (by omega)] at hab hba
        rw [ih ys hab hba]
      · rw [if_neg (by omega), if_pos h] at hab; simp at hab

instance : IsTotal (List Nat × Value) keyLe :=
  ⟨fun x y => by unfold keyLe; exact lexLe_total x.1 y.1⟩

instance : IsTrans (List Nat × Value) keyLe :=
  ⟨fun x y z => by unfold keyLe; exact lexLe_trans x.1 y.1 z.1⟩

/-- Decimal serialization of an integer (JCS integer form). -/
def serNum (n : Int) : List Nat :=
  if n < 0 then 45 :: natDigits n.natAbs else natDigits n.natAbs

mutual
/-- Modelled from the spec: the RFC 8785 serialization of an
already-canonicalized value — the source calls `serde_jcs::to_vec`, which is
not part of this repository.  Members are serialized in the order given;
`serVal (canon v)` is the full JCS form. -/
def serVal : Value → List Nat
  | .vnull => [110, 117, 108, 108]
  | .vbool true => [116, 114, 117, 101]
  | .vbool false => [102, 97, 108, 115, 101]
  | .vnum n => serNum n
  | .vstr s => serStr s
  | .varr [] => [91, 93]
  | .varr (x :: xs) => 91 :: (serVal x ++ serIList xs) ++ [93]
  | .vobj [] => [123, 125]
  | .vobj (kv :: kvs) => 123 :: (serMember kv ++ serIMembers kvs) ++ [125]
/-- Remaining array elements, each preceded by a comma. -/
def serIList : List Value → List Nat
  | [] => []
  | v :: tl => 44 :: serVal v ++ serIList tl
/-- One object member: string key, colon, value. -/
def serMember : List Nat × Value → List Nat
  | (k, v) => serStr k ++ 58 :: serVal v
/-- Remaining object members, each preceded by a comma. -/
def serIMembers : List (List Nat × Value) → List Nat
  | [] => []
  | kv :: tl => 44 :: serMember kv ++ serIMembers tl
end

mutual
/-- Modelled from the spec: the member ordering of `serde_jcs`, which is not
part of this repository — recursively sorts every object's members by key.
`serVal (canon v)` is the JCS serialization of `v`. -/
def canon : Value → Value
  | .vnull => .vnull
  | .vbool b => .vbool b
  | .vnum n => .vnum n
  | .vstr s => .vstr s
  | .varr xs => .varr (canonList xs)
  | .vobj kvs => .vobj (List.insertionSort keyLe (canonMembers kvs))
def canonList : List Value → List Value
  | [] => []
  | v :: tl => canon v :: canonList tl
def canonMembers : List (List Nat × Value) → List (List Nat × Value)
  | [] => []
  | (k, v) :: tl => (k, canon v) :: canonMembers tl
end

/-- Every scalar value of the string is valid. -/
def validStr (s : List Nat) : Bool := s.all fun c => decide (ValidScalar c)

/-- No key occurs twice. -/
def distinctKeys : List (List Nat) → Bool
  | [] => true
  | k :: tl => !(decide (k ∈ tl)) && distinctKeys tl

mutual
/-- Well-formedness of a value as a model of a real `serde_json::Value`:
every string is a list of Unicode scalar values and every object has
distinct keys (`serde_json` objects are maps, so both always hold there). -/
def wfB : Value → Bool
  | .vnull => true
  | .vbool _ => true
  | .vnum _ => true
  | .vstr s => validStr s
  | .varr xs => wfL xs
  | .vobj kvs => distinctKeys (kvs.map Prod.fst) && wfM kvs
def wfL : List Value → Bool
  | [] => true
  | v :: tl => wfB v && wfL tl
def wfM : List (List Nat × Value) → Bool
  | [] => true
  | (k, v) :: tl => validStr k && wfB v && wfM tl
end

mutual
/-- Structural equality of JSON values: arrays pointwise, objects up to a
permutation of their members, values recursively. -/
inductive StructEq : Value → Value → Prop where
  | null : StructEq .vnull .vnull
  | bool (b) : StructEq (.vbool b) (.vbool b)
  | num (n) : StructEq (.vnum n) (.vnum n)
  | str (s) : StructEq (.vstr s) (.vstr s)
  | arr {xs ys} : SeqEq xs ys → StructEq (.varr xs) (.varr ys)
  | obj {kvs l kws} : List.Perm kvs l → MembersEq l kws →
      StructEq (.vobj kvs) (.vobj kws)
/-- Pointwise structural equality of sequences. -/
inductive SeqEq : List Value → List Value → Prop where
  | nil : SeqEq [] []
  | cons {x y xs ys} : StructEq x y → SeqEq xs ys → SeqEq (x :: xs) (y :: ys)
/-- Pointwise structural equality of member lists: equal keys, structurally
equal values. -/
inductive MembersEq : List (List Nat × Value) → List (List Nat × Value) → Prop where
  | nil : MembersEq [] []
  | cons {k x y t t2} : StructEq x y → MembersEq t t2 →
      MembersEq ((k, x) :: t) ((k, y) :: t2)
end

/-! ## The JSON parser

Modelled from the spec: `get_value` "parses the returned canonical bytes as
JSON" (the source calls `serde_json::Value::from_str`, whose code is not in
this repository).  The model parses whitespace-free JSON documents with
integer numbers — every document the canonical serializer can produce — and
is fueled: the fuel decreases on every nested value, and one more than the
input length always suffices, since every value consumes input. -/

mutual
def parseValue : Nat → List Nat → Option (Value × List Nat)
  | 0, _ => none
  | fuel + 1, input =>
      match input with
      | [] => none
      | c :: rest =>
          if c = 110 then
            match rest with
            | 117 :: 108 :: 108 :: r => some (.vnull, r)
            | _ => none
          else if c = 116 then
            match rest with
            | 114 :: 117 :: 101 :: r => some (.vbool true, r)
            | _ => none
          else if c = 102 then
            match rest with
            | 97 :: 108 :: 115 :: 101 :: r => some (.vbool false, r)
            | _ => none
          else if c = 34 then
            (psb rest.length rest).map fun p => (.vstr p.1, p.2)
          else if c = 45 then
            (parseNat rest).map fun p => (.vnum (-(p.1 : Int)), p.2)
          else if 48 ≤ c ∧ c ≤ 57 then
            (parseNat (c :: rest)).map fun p => (.vnum (p.1 : Int), p.2)
          else if c = 91 then
            match rest with
            | 93 :: r => some (.varr [], r)
            | _ => (parseElems fuel rest).map fun p => (.varr p.1, p.2)
          else if c = 123 then
            match rest with
            | 125 :: r => some (.vobj [], r)
            | _ => (parseMembers fuel rest).map fun p => (.vobj p.1, p.2)
          else none
  termination_by fuel _ => (fuel, 0)
def parseElems : Nat → List Nat → Option (List Value × List Nat)
  | 0, _ => none
  | fuel + 1, input =>
      match parseValue (fuel + 1) input with
      | none => none
      | some (v, r) =>
          match r with
          | 44 :: r2 =>
              match parseElems fuel r2 with
              | none => none
              | some (vs, r3) => some (v :: vs, r3)
          | 93 :: r2 => some ([v], r2)
          | _ => none
  termination_by fuel _ => (fuel, 1)
def parseMembers : Nat → List Nat → Option (List (List Nat × Value) × List Nat)
  | 0, _ => none
  | fuel + 1, input =>
      match input with
      | 34 :: r =>
          match psb r.length r with
          | none => none
          | some (k, r2) =>
              match r2 with
              | 58 :: r3 =>
                  match parseValue (fuel + 1) r3 with
                  | none => none
                  | some (v, r4) =>
                      match r4 with
                      | 44 :: r5 =>
                          match parseMembers fuel r5 with
                          | none => none
                          | some (ms, r6) => some ((k, v) :: ms, r6)
                      | 125 :: r5 => some ([(k, v)], r5)
                      | _ => none
              | _ => none
      | _ => none
  termination_by fuel _ => (fuel, 1)
end

/-- Modelled from the spec: `serde_json::Value::from_str`, which is not part
of this repository — parse one complete value, nothing before or after it. -/
def fromStr (s : List Nat) : Option Value :=
  match parseValue (s.length + 1) s with
  | some (v, []) => some v
  | _ => none

/-! ## The parser inverts the serializer -/

/-- What may follow a serialized value inside a document: nothing, or a
comma, or a closing bracket or brace. -/
def Boundary : List Nat → Prop
  | [] => True
  | c :: _ => c = 44 ∨ c = 93 ∨ c = 125

theorem boundary_noDigit (rest : List Nat) (h : Boundary rest) : NoDigitHead rest := by
  cases rest with
  | nil => trivial
  | cons c tl =>
    unfold Boundary at h
    unfold NoDigitHead
    omega

/-- Every serialized value starts with a character that cannot be mistaken
for a separator or a closing delimiter. -/
theorem serVal_head (v : Value) : ∃ c cs, serVal v = c :: cs ∧
    c ≠ 44 ∧ c ≠ 58 ∧ c ≠ 93 ∧ c ≠ 125 := by
  cases v with
  | vnull => exact ⟨110, _, rfl, by omega, by omega, by omega, by omega⟩
  | vbool b =>
    cases b with
    | true => exact ⟨116, _, rfl, by omega, by omega, by omega, by omega⟩
    | false => exact ⟨102, _, rfl, by omega, by omega, by omega, by omega⟩
  | vnum n =>
    show ∃ c cs, serNum n = c :: cs ∧ _
    unfold serNum
    by_cases hn : n < 0
    · exact ⟨45, _, by rw [if_pos hn], by omega, by omega, by omega, by omega⟩
    · obtain ⟨d, t, hdt, hd1, hd2, _⟩ :=
        natDigitsAux_head (n.natAbs + 1) n.natAbs (by omega)
      exact ⟨d, t, by rw [if_neg hn]; exact hdt, by omega, by omega, by omega, by omega⟩
  | vstr s => exact ⟨34, _, rfl, by omega, by omega, by omega, by omega⟩
  | varr xs =>
    cases xs with
    | nil => exact ⟨91, _, rfl, by omega, by omega, by omega, by omega⟩
    | cons x tl => exact ⟨91, _, rfl, by omega, by omega, by omega, by omega⟩
  | vobj kvs =>
    cases kvs with
    | nil => exact ⟨123, _, rfl, by omega, by omega, by omega, by omega⟩
    | cons kv tl =>
      obtain ⟨k, v2⟩ := kv
      exact ⟨123, _, rfl, by omega, by omega, by omega, by omega⟩

theorem serVal_length_pos (v : Value) : 1 ≤ (serVal v).length := by
  obtain ⟨c, cs, h, -⟩ := serVal_head v
  rw [h]
  simp

theorem serVal_arr_cons (x : Value) (tl : List Value) :
    serVal (.varr (x :: tl)) = 91 :: (serVal x ++ serIList tl) ++ [93] := rfl

theorem serVal_obj_cons (k : List Nat) (v : Value) (tl : List (List Nat × Value)) :
    serVal (.vobj ((k, v) :: tl))
      = 123 :: (serMember (k, v) ++ serIMembers tl) ++ [125] := rfl

theorem serIList_cons (v : Value) (tl : List Value) :
    serIList (v :: tl) = 44 :: serVal v ++ serIList tl := rfl

theorem serIMembers_cons (kv : List Nat × Value) (tl : List (List Nat × Value)) :
    serIMembers (kv :: tl) = 44 :: serMember kv ++ serIMembers tl := rfl

theorem serStr_length (s : List Nat) :
    (serStr s).length = (escString s).length + 2 := by
  show (34 :: escString s ++ [34]).length = _
  simp

theorem serMember_length (k : List Nat) (v : Value) :
    (serMember (k, v)).length = (escString k).length + 3 + (serVal v).length := by
  show (serStr k ++ 58 :: serVal v).length = _
  rw [List.length_append, serStr_length]
  simp
  omega

theorem boundary_serIList (xs : List Value) (rest : List Nat) :
    Boundary (serIList xs ++ 93 :: rest) := by
  cases xs with
  | nil => show Boundary (93 :: rest); right; left; rfl
  | cons v tl => show Boundary (44 :: _); left; rfl

theorem boundary_serIMembers (kvs : List (List Nat × Value)) (rest : List Nat) :
    Boundary (serIMembers kvs ++ 125 :: rest) := by
  cases kvs with
  | nil => show Boundary (125 :: rest); right; right; rfl
  | cons kv tl => show Boundary (44 :: _); left; rfl

/-- The parser reads back exactly what the serializer wrote: values, the
element lists of arrays, and the member lists of objects, for any fuel at
least the input length. -/
theorem parse_serVal_triple : ∀ fuel : Nat,
    (∀ v rest, (serVal v ++ rest).length ≤ fuel → Boundary rest →
        parseValue fuel (serVal v ++ rest) = some (v, rest))
    ∧ (∀ x xs rest, (serVal x ++ (serIList xs ++ 93 :: rest)).length ≤ fuel →
        parseElems fuel (serVal x ++ (serIList xs ++ 93 :: rest)) = some (x :: xs, rest))
    ∧ (∀ k v kvs rest,
        (serMember (k, v) ++ (serIMembers kvs ++ 125 :: rest)).length ≤ fuel →
        parseMembers fuel (serMember (k, v) ++ (serIMembers kvs ++ 125 :: rest))
          = some ((k, v) :: kvs, rest)) := by
  intro fuel
  induction fuel using Nat.strong_induction_on with
  | _ fuel ih =>
    match fuel with
    | 0 =>
      refine ⟨?_, ?_, ?_⟩
      · intro v rest hlen _
        have h1 := serVal_length_pos v
        rw [List.length_append] at hlen
        omega
      · intro x xs rest hlen
        have h1 := serVal_length_pos x
        rw [List.length_append] at hlen
        omega
      · intro k v kvs rest hlen
        have h1 := serMember_length k v
        rw [List.length_append] at hlen
        omega
    | fuel + 1 =>
      have ihE := (ih fuel (by omega)).2.1
      have ihM := (ih fuel (by omega)).2.2
      have hV : ∀ v rest, (serVal v ++ rest).length ≤ fuel + 1 → Boundary rest →
          parseValue (fuel + 1) (serVal v ++ rest) = some (v, rest) := by
        intro v rest hlen hb
        cases v with
        | vnull => rw [parseValue.eq_def]; simp [serVal]
        | vbool b => cases b <;> (rw [parseValue.eq_def]; simp [serVal])
        | vnum n =>
          show parseValue (fuel + 1) (serNum n ++ rest) = some (.vnum n, rest)
          unfold serNum
          by_cases hn : n < 0
          · rw [if_pos hn]
            have hpn := parseNat_natDigits n.natAbs rest (boundary_noDigit rest hb)
            rw [parseValue.eq_def]
            simp [hpn]
            rw [Int.abs_eq_natAbs]
            omega
          · rw [if_neg hn]
            obtain ⟨d, t, hdt, hd1, hd2, _⟩ :=
              natDigitsAux_head (n.natAbs + 1) n.natAbs (by omega)
            have hpn := parseNat_natDigits n.natAbs rest (boundary_noDigit rest hb)
            unfold natDigits at hpn ⊢
            rw [hdt] at hpn ⊢
            have hpn2 : parseNat (d :: (t ++ rest)) = some (n.natAbs, rest) := by
              rw [← List.cons_append]
              exact hpn
            have c1 : ¬(d = 110) := by omega
            have c2 : ¬(d = 116) := by omega
            have c3 : ¬(d = 102) := by omega
            have c4 : ¬(d = 34) := by omega
            have c5 : ¬(d = 45) := by omega
            have hint : ((n.natAbs : Nat) : Int) = n := by omega
            rw [parseValue.eq_def]
            simp [c1, c2, c3, c4, c5, hd1, hd2, hpn2, hint]
        | vstr s =>
          show parseValue (fuel + 1) (serStr s ++ rest) = some (.vstr s, rest)
          unfold serStr
          have hshape : (34 :: escString s ++ [34]) ++ rest
              = 34 :: (escString s ++ 34 :: rest) := by simp
          rw [hshape]
          have hpsb := psb_escString s ((escString s).length + (rest.length + 1)) rest
            (by have := escString_length_ge s; omega)
          rw [parseValue.eq_def]
          simp [hpsb]
        | varr xs =>
          cases xs with
          | nil => rw [parseValue.eq_def]; simp [serVal]
          | cons x tl =>
            show parseValue (fuel + 1)
                ((91 :: (serVal x ++ serIList tl) ++ [93]) ++ rest) = _
            have hshape : (91 :: (serVal x ++ serIList tl) ++ [93]) ++ rest
                = 91 :: (serVal x ++ (serIList tl ++ 93 :: rest)) := by simp
            rw [hshape]
            obtain ⟨c0, cs, hcons, hne1, hne2, hne3, hne4⟩ := serVal_head x
            have hE := ihE x tl rest (by
              rw [serVal_arr_cons, hshape] at hlen
              simp only [List.length_cons, List.length_append] at hlen ⊢
              omega)
            rw [parseValue.eq_def]
            simp
            split
            next r heq =>
              rw [hcons] at heq
              simp at heq
              omega
            next =>
              simp [hE]
        | vobj kvs =>
          cases kvs with
          | nil => rw [parseValue.eq_def]; simp [serVal]
          | cons kv tl =>
            obtain ⟨k, v2⟩ := kv
            show parseValue (fuel + 1)
                ((123 :: (serMember (k, v2) ++ serIMembers tl) ++ [125]) ++ rest) = _
            have hshape : (123 :: (serMember (k, v2) ++ serIMembers tl) ++ [125]) ++ rest
                = 123 :: (serMember (k, v2) ++ (serIMembers tl ++ 125 :: rest)) := by
              simp
            rw [hshape]
            have hM := ihM k v2 tl rest (by
              rw [serVal_obj_cons, hshape] at hlen
              simp only [List.length_cons, List.length_append] at hlen ⊢
              omega)
            rw [parseValue.eq_def]
            simp
            split
            next r heq =>
              have hm : serMember (k, v2)
                  = 34 :: ((escString k ++ [34]) ++ 58 :: serVal v2) := rfl
              rw [hm] at heq
              simp at heq
            next =>
              simp [hM]
      refine ⟨hV, ?_, ?_⟩
      · intro x xs rest hlen
        rw [parseElems.eq_def]
        simp only []
        cases xs with
        | nil =>
          have h0 : serIList ([] : List Value) ++ 93 :: rest = 93 :: rest := rfl
          rw [h0] at hlen ⊢
          have hval := hV x (93 :: rest) hlen (by right; left; rfl)
          rw [hval]
        | cons x2 tl =>
          have h0 : serIList (x2 :: tl) ++ 93 :: rest
              = 44 :: (serVal x2 ++ (serIList tl ++ 93 :: rest)) := by
            rw [serIList_cons]
            simp
          rw [h0] at hlen ⊢
          have hval := hV x (44 :: (serVal x2 ++ (serIList tl ++ 93 :: rest))) hlen
            (by left; rfl)
          have hE2 := ihE x2 tl rest (by
            have h1 := serVal_length_pos x
            simp only [List.length_cons, List.length_append] at hlen ⊢
            omega)
          rw [hval]
          simp only []
          rw [hE2]
      · intro k v kvs rest hlen
        have hshape : serMember (k, v) ++ (serIMembers kvs ++ 125 :: rest)
            = 34 :: (escString k
                ++ 34 :: (58 :: (serVal v ++ (serIMembers kvs ++ 125 :: rest)))) := by
          have hm : serMember (k, v)
              = 34 :: ((escString k ++ [34]) ++ 58 :: serVal v) := rfl
          rw [hm]
          simp
        rw [hshape] at hlen ⊢
        rw [parseMembers.eq_def]
        simp only []
        rw [psb_escString k
          (escString k ++ 34 :: (58 :: (serVal v ++ (serIMembers kvs ++ 125 :: rest)))).length
          (58 :: (serVal v ++ (serIMembers kvs ++ 125 :: rest)))
          (by have := escString_length_ge k
              simp only [List.length_append, List.length_cons]
              omega)]
        simp only []
        have hval := hV v (serIMembers kvs ++ 125 :: rest) (by
          have h1 := serMember_length k v
          simp only [List.length_cons, List.length_append] at hlen ⊢
          omega) (boundary_serIMembers kvs rest)
        rw [hval]
        simp only []
        cases kvs with
        | nil =>
          have h0 : serIMembers ([] : List (List Nat × Value)) ++ 125 :: rest
              = 125 :: rest := rfl
          rw [h0]
        | cons kv2 tl =>
          obtain ⟨k2, v3⟩ := kv2
          have h0 : serIMembers ((k2, v3) :: tl) ++ 125 :: rest
              = 44 :: (serMember (k2, v3) ++ (serIMembers tl ++ 125 :: rest)) := by
            rw [serIMembers_cons]
            simp
          rw [h0]
          simp only []
          have hM2 := ihM k2 v3 tl rest (by
            rw [h0] at hlen
            have h1 := serMember_length k v
            simp only [List.length_cons, List.length_append] at hlen ⊢
            omega)
          rw [hM2]

/-- Parsing a complete serialized value yields exactly that value. -/
theorem fromStr_serVal (v : Value) : fromStr (serVal v) = some v := by
  unfold fromStr
  have h := (parse_serVal_triple ((serVal v).length + 1)).1 v [] (by simp) trivial
  rw [List.append_nil] at h
  rw [h]

/-! ## Canonicalization lemmas -/

theorem canonList_eq (xs : List Value) : canonList xs = xs.map canon := by
  induction xs with
  | nil => rfl
  | cons v tl ih => simp [canonList, ih]

theorem canonMembers_eq (kvs : List (List Nat × Value)) :
    canonMembers kvs = kvs.map fun kv => (kv.1, canon kv.2) := by
  induction kvs with
  | nil => rfl
  | cons kv tl ih =>
    obtain ⟨k, v⟩ := kv
    simp [canonMembers, ih]

theorem canonMembers_keys (kvs : List (List Nat × Value)) :
    (canonMembers kvs).map Prod.fst = kvs.map Prod.fst := by
  rw [canonMembers_eq, List.map_map]
  rfl

mutual
/-- The canonicalized value is structurally equal to the original: sorting
object members is a permutation. -/
theorem canon_structEq : ∀ v : Value, StructEq (canon v) v
  | .vnull => .null
  | .vbool b => .bool b
  | .vnum n => .num n
  | .vstr s => .str s
  | .varr xs => .arr (canonList_seqEq xs)
  | .vobj kvs =>
      .obj (List.perm_insertionSort keyLe (canonMembers kvs))
        (canonMembers_membersEq kvs)
theorem canonList_seqEq : ∀ xs : List Value, SeqEq (canonList xs) xs
  | [] => .nil
  | v :: tl => .cons (canon_structEq v) (canonList_seqEq tl)
theorem canonMembers_membersEq :
    ∀ kvs : List (List Nat × Value), MembersEq (canonMembers kvs) kvs
  | [] => .nil
  | (_, v) :: tl => .cons (canon_structEq v) (canonMembers_membersEq tl)
end

theorem distinctKeys_iff (l : List (List Nat)) :
    distinctKeys l = true ↔ l.Nodup := by
  induction l with
  | nil => simp [distinctKeys]
  | cons k tl ih => simp [distinctKeys, ih]

theorem wfM_iff (l : List (List Nat × Value)) :
    wfM l = true ↔ ∀ kv ∈ l, validStr kv.1 = true ∧ wfB kv.2 = true := by
  induction l with
  | nil => simp [wfM]
  | cons kv tl ih =>
    obtain ⟨k, v⟩ := kv
    simp [wfM, ih]

theorem wfL_iff (l : List Value) :
    wfL l = true ↔ ∀ v ∈ l, wfB v = true := by
  induction l with
  | nil => simp [wfL]
  | cons v tl ih => simp [wfL, ih]

mutual
/-- Canonicalization preserves well-formedness. -/
theorem wfB_canon : ∀ v : Value, wfB v = true → wfB (canon v) = true
  | .vnull, _ => rfl
  | .vbool _, _ => rfl
  | .vnum _, _ => rfl
  | .vstr _, h => h
  | .varr xs, h => wfL_canonList xs h
  | .vobj kvs, h => by
      show (distinctKeys ((List.insertionSort keyLe (canonMembers kvs)).map Prod.fst)
          && wfM (List.insertionSort keyLe (canonMembers kvs))) = true
      have hh : (distinctKeys (kvs.map Prod.fst) && wfM kvs) = true := h
      simp at hh
      have hperm := List.perm_insertionSort keyLe (canonMembers kvs)
      have hkeys : ((List.insertionSort keyLe (canonMembers kvs)).map Prod.fst).Perm
          (kvs.map Prod.fst) := by
        have h1 := hperm.map Prod.fst
        rw [canonMembers_keys] at h1
        exact h1
      have hd : distinctKeys ((List.insertionSort keyLe (canonMembers kvs)).map
          Prod.fst) = true := by
        rw [distinctKeys_iff]
        exact hkeys.nodup_iff.mpr ((distinctKeys_iff _).mp hh.1)
      have hw : wfM (List.insertionSort keyLe (canonMembers kvs)) = true := by
        rw [wfM_iff]
        intro kv hkv
        have hmem : kv ∈ canonMembers kvs := hperm.subset hkv
        have hM := wfM_canonMembers kvs hh.2
        exact (wfM_iff _).mp hM kv hmem
      simp [hd, hw]
theorem wfL_canonList : ∀ xs : List Value, wfL xs = true → wfL (canonList xs) = true
  | [], _ => rfl
  | v :: tl, h => by
      have hh : (wfB v && wfL tl) = true := h
      simp at hh
      show (wfB (canon v) && wfL (canonList tl)) = true
      simp [wfB_canon v hh.1, wfL_canonList tl hh.2]
theorem wfM_canonMembers :
    ∀ kvs : List (List Nat × Value), wfM kvs = true → wfM (canonMembers kvs) = true
  | [], _ => rfl
  | (k, v) :: tl, h => by
      have hh : (validStr k && wfB v && wfM tl) = true := h
      simp at hh
      show (validStr k && wfB (canon v) && wfM (canonMembers tl)) = true
      simp [hh.1.1, wfB_canon v hh.1.2, wfM_canonMembers tl hh.2]
end

/-- Two permuted member lists with the same distinct keys sort identically:
insertion sort is a canonical form. -/
theorem sorted_perm_eq : ∀ (a b : List (List Nat × Value)), a.Perm b →
    List.Sorted keyLe a → List.Sorted keyLe b → (a.map Prod.fst).Nodup → a = b := by
  intro a
  induction a with
  | nil => intro b hp _ _ _; exact (hp.nil_eq).symm ▸ rfl
  | cons x a2 ih =>
    intro b hp hsa hsb hnd
    cases b with
    | nil => exact absurd hp.symm.nil_eq (by simp)
    | cons y b2 =>
      by_cases hxy : x = y
      · subst hxy
        have hp2 : a2.Perm b2 := hp.cons_inv
        have := ih b2 hp2 (List.sorted_cons.mp hsa).2 (List.sorted_cons.mp hsb).2
          (by rw [List.map_cons] at hnd; exact (List.nodup_cons.mp hnd).2)
        rw [this]
      · have hyx : y ∈ x :: a2 := hp.symm.subset (by simp)
        have hxb : x ∈ y :: b2 := hp.subset (by simp)
        have hy2 : y ∈ a2 := by
          rcases List.mem_cons.mp hyx with h | h
          · exact absurd h.symm hxy
          · exact h
        have hx2 : x ∈ b2 := by
          rcases List.mem_cons.mp hxb with h | h
          · exact absurd h hxy
          · exact h
        have h1 : keyLe x y := (List.sorted_cons.mp hsa).1 y hy2
        have h2 : keyLe y x := (List.sorted_cons.mp hsb).1 x hx2
        have hkeq : x.1 = y.1 := lexLe_antisymm x.1 y.1 h1 h2
        rw [List.map_cons] at hnd
        have hx1 : x.1 ∉ a2.map Prod.fst := (List.nodup_cons.mp hnd).1
        have hy1 : y.1 ∈ a2.map Prod.fst := List.mem_map.mpr ⟨y, hy2, rfl⟩
        rw [← hkeq] at hy1
        exact absurd hy1 hx1

mutual
/-- Structurally equal well-formed values have the same canonical form: the
member sort erases any difference in key order. -/
theorem structEq_canon : ∀ {v w : Value}, StructEq v w →
    wfB v = true → wfB w = true → canon v = canon w
  | _, _, .null, _, _ => rfl
  | _, _, .bool b, _, _ => rfl
  | _, _, .num n, _, _ => rfl
  | _, _, .str s, _, _ => rfl
  | _, _, .arr hs, hv, hw => by
      show Value.varr _ = Value.varr _
      rw [seqEq_canon hs hv hw]
  | _, _, @StructEq.obj kvs l kws hp hm, hv, hw => by
      show Value.vobj (List.insertionSort keyLe (canonMembers kvs))
          = Value.vobj (List.insertionSort keyLe (canonMembers kws))
      have hv2 : (distinctKeys (kvs.map Prod.fst) && wfM kvs) = true := hv
      have hw2 : (distinctKeys (kws.map Prod.fst) && wfM kws) = true := hw
      simp at hv2 hw2
      have hl : wfM l = true := by
        rw [wfM_iff]
        intro kv hkv
        exact (wfM_iff kvs).mp hv2.2 kv (hp.symm.subset hkv)
      have hcan : canonMembers l = canonMembers kws :=
        membersEq_canon hm hl hw2.2
      have hpc : (canonMembers kvs).Perm (canonMembers l) := by
        rw [canonMembers_eq, canonMembers_eq]
        exact hp.map _
      have hperm : (List.insertionSort keyLe (canonMembers kvs)).Perm
          (List.insertionSort keyLe (canonMembers kws)) := by
        have p1 := List.perm_insertionSort keyLe (canonMembers kvs)
        have p2 : (canonMembers kvs).Perm (canonMembers kws) := hcan ▸ hpc
        have p3 := (List.perm_insertionSort keyLe (canonMembers kws)).symm
        exact (p1.trans p2).trans p3
      have hnd : ((List.insertionSort keyLe (canonMembers kvs)).map Prod.fst).Nodup := by
        have h1 : ((List.insertionSort keyLe (canonMembers kvs)).map Prod.fst).Perm
            (kvs.map Prod.fst) := by
          have h2 := (List.perm_insertionSort keyLe (canonMembers kvs)).map Prod.fst
          rw [canonMembers_keys] at h2
          exact h2
        exact h1.nodup_iff.mpr ((distinctKeys_iff _).mp hv2.1)
      rw [sorted_perm_eq _ _ hperm
        (List.sorted_insertionSort keyLe _) (List.sorted_insertionSort keyLe _) hnd]
theorem seqEq_canon : ∀ {xs ys : List Value}, SeqEq xs ys →
    wfL xs = true → wfL ys = true → canonList xs = canonList ys
  | _, _, .nil, _, _ => rfl
  | _, _, .cons hv ht, hx, hy => by
      have hx2 : (wfB _ && wfL _) = true := hx
      have hy2 : (wfB _ && wfL _) = true := hy
      simp at hx2 hy2
      show canon _ :: canonList _ = canon _ :: canonList _
      rw [structEq_canon hv hx2.1 hy2.1, seqEq_canon ht hx2.2 hy2.2]
theorem membersEq_canon : ∀ {l t : List (List Nat × Value)}, MembersEq l t →
    wfM l = true → wfM t = true → canonMembers l = canonMembers t
  | _, _, .nil, _, _ => rfl
  | _, _, @MembersEq.cons k _ _ _ _ hv ht, hx, hy => by
      have hx2 : (validStr k && wfB _ && wfM _) = true := hx
      have hy2 : (validStr k && wfB _ && wfM _) = true := hy
      simp at hx2 hy2
      show (k, canon _) :: canonMembers _ = (k, canon _) :: canonMembers _
      rw [structEq_canon hv hx2.1.2 hy2.1.2, membersEq_canon ht hx2.2 hy2.2]
end

/-! ## The serialized form of a well-formed value is a valid string -/

theorem natDigitsAux_mem : ∀ (fuel n c : Nat),
    c ∈ natDigitsAux fuel n → 48 ≤ c ∧ c ≤ 57 := by
  intro fuel
  induction fuel with
  | zero => intro n c h; simp [natDigitsAux] at h
  | succ fuel ih =>
    intro n c h
    unfold natDigitsAux at h
    by_cases h10 : n < 10
    · rw [if_pos h10] at h
      simp at h
      omega
    · rw [if_neg h10] at h
      rcases List.mem_append.mp h with h2 | h2
      · exact ih (n / 10) c h2
      · simp at h2
        omega

theorem serNum_valid (n : Int) (c : Nat) (h : c ∈ serNum n) : ValidScalar c := by
  unfold serNum at h
  by_cases hn : n < 0
  · rw [if_pos hn] at h
    rcases List.mem_cons.mp h with h2 | h2
    · subst h2; exact ⟨by omega, by omega⟩
    · have := natDigitsAux_mem _ _ _ h2
      exact ⟨by omega, by omega⟩
  · rw [if_neg hn] at h
    have := natDigitsAux_mem _ _ _ h
    exact ⟨by omega, by omega⟩

theorem hexDigit_range (n : Nat) (h : n < 16) :
    48 ≤ hexDigit n ∧ hexDigit n ≤ 102 := by
  unfold hexDigit
  split <;> omega

theorem escapeChar_valid (c0 c : Nat) (h0 : ValidScalar c0)
    (h : c ∈ escapeChar c0) : ValidScalar c := by
  unfold escapeChar at h
  split at h
  · simp at h; unfold ValidScalar; omega
  · split at h
    · simp at h; unfold ValidScalar; omega
    · split at h
      · simp at h; unfold ValidScalar; omega
      · split at h
        · simp at h; unfold ValidScalar; omega
        · split at h
          · simp at h; unfold ValidScalar; omega
          · split at h
            · simp at h; unfold ValidScalar; omega
            · split at h
              · simp at h; unfold ValidScalar; omega
              · split at h
                · simp at h
                  have r1 := hexDigit_range (c0 / 16) (by omega)
                  have r2 := hexDigit_range (c0 % 16) (by omega)
                  unfold ValidScalar
                  rcases h with h | h | h | h | h <;> omega
                · simp at h
                  subst h
                  exact h0

theorem escString_valid (s : List Nat) (hs : validStr s = true) :
    ∀ c ∈ escString s, ValidScalar c := by
  intro c hc
  unfold escString at hc
  rw [List.mem_flatten] at hc
  obtain ⟨l, hl, hcl⟩ := hc
  rw [List.mem_map] at hl
  obtain ⟨c0, hc0, hrfl⟩ := hl
  subst hrfl
  have h0 : ValidScalar c0 := by
    unfold validStr at hs
    rw [List.all_eq_true] at hs
    exact of_decide_eq_true (hs c0 hc0)
  exact escapeChar_valid c0 c h0 hcl

theorem serStr_valid (s : List Nat) (hs : validStr s = true) :
    ∀ c ∈ serStr s, ValidScalar c := by
  intro c hc
  unfold serStr at hc
  rcases List.mem_cons.mp hc with h | h
  · subst h; exact ⟨by omega, by omega⟩
  · rcases List.mem_append.mp h with h2 | h2
    · exact escString_valid s hs c h2
    · simp at h2
      subst h2
      exact ⟨by omega, by omega⟩

mutual
/-- Every code point of the serialization of a well-formed value is a valid
Unicode scalar value, so the serialization UTF-8-encodes and decodes
losslessly. -/
theorem serVal_valid : ∀ (v : Value), wfB v = true →
    ∀ c ∈ serVal v, ValidScalar c
  | .vnull, _, c, hc => by
      simp [serVal] at hc
      unfold ValidScalar
      omega
  | .vbool true, _, c, hc => by
      simp [serVal] at hc
      unfold ValidScalar
      omega
  | .vbool false, _, c, hc => by
      simp [serVal] at hc
      unfold ValidScalar
      omega
  | .vnum n, _, c, hc => serNum_valid n c hc
  | .vstr s, h, c, hc => serStr_valid s h c hc
  | .varr [], _, c, hc => by
      simp [serVal] at hc
      unfold ValidScalar
      omega
  | .varr (x :: tl), h, c, hc => by
      have hh : (wfB x && wfL tl) = true := h
      simp at hh
      rw [serVal_arr_cons] at hc
      rcases List.mem_cons.mp hc with h2 | h2
      · subst h2; exact ⟨by omega, by omega⟩
      · rcases List.mem_append.mp h2 with h3 | h3
        · rcases List.mem_append.mp h3 with h4 | h4
          · exact serVal_valid x hh.1 c h4
          · exact serIList_valid tl hh.2 c h4
        · simp at h3
          subst h3
          exact ⟨by omega, by omega⟩
  | .vobj [], _, c, hc => by
      simp [serVal] at hc
      unfold ValidScalar
      omega
  | .vobj (kv :: tl), h, c, hc => by
      obtain ⟨k, v⟩ := kv
      have hh : (distinctKeys _ && (validStr k && wfB v && wfM tl)) = true := h
      simp at hh
      rw [serVal_obj_cons] at hc
      rcases List.mem_cons.mp hc with h2 | h2
      · subst h2; exact ⟨by omega, by omega⟩
      · rcases List.mem_append.mp h2 with h3 | h3
        · rcases List.mem_append.mp h3 with h4 | h4
          · exact serMember_valid (k, v) (by simp [hh.2.1.1, hh.2.1.2]) c h4
          · exact serIMembers_valid tl (by
              rw [wfM_iff]
              intro kv2 hkv2
              exact (wfM_iff tl).mp hh.2.2 kv2 hkv2) c h4
        · simp at h3
          subst h3
          exact ⟨by omega, by omega⟩
theorem serIList_valid : ∀ (xs : List Value), wfL xs = true →
    ∀ c ∈ serIList xs, ValidScalar c
  | [], _, c, hc => by simp [serIList] at hc
  | x :: tl, h, c, hc => by
      have hh : (wfB x && wfL tl) = true := h
      simp at hh
      rw [serIList_cons] at hc
      rcases List.mem_cons.mp hc with h2 | h2
      · subst h2; exact ⟨by omega, by omega⟩
      · rcases List.mem_append.mp h2 with h3 | h3
        · exact serVal_valid x hh.1 c h3
        · exact serIList_valid tl hh.2 c h3
theorem serMember_valid : ∀ (kv : List Nat × Value),
    (validStr kv.1 && wfB kv.2) = true → ∀ c ∈ serMember kv, ValidScalar c
  | (k, v), h, c, hc => by
      simp at h
      have hc2 : c ∈ serStr k ++ 58 :: serVal v := hc
      rcases List.mem_append.mp hc2 with h2 | h2
      · exact serStr_valid k h.1 c h2
      · rcases List.mem_cons.mp h2 with h3 | h3
        · subst h3; exact ⟨by omega, by omega⟩
        · exact serVal_valid v h.2 c h3
theorem serIMembers_valid : ∀ (kvs : List (List Nat × Value)), wfM kvs = true →
    ∀ c ∈ serIMembers kvs, ValidScalar c
  | [], _, c, hc => by simp [serIMembers] at hc
  | (k, v) :: tl, h, c, hc => by
      have hh : (validStr k && wfB v && wfM tl) = true := h
      simp at hh
      rw [serIMembers_cons] at hc
      rcases List.mem_cons.mp hc with h2 | h2
      · subst h2; exact ⟨by omega, by omega⟩
      · rcases List.mem_append.mp h2 with h3 | h3
        · exact serMember_valid (k, v) (by simp [hh.1.1, hh.1.2]) c h3
        · exact serIMembers_valid tl hh.2 c h3
end

/-! ## The store (`Database`, `Item`): translated from `src/lib.rs`

The filesystem is an explicit state: a set of directories and an association
list of files, each named by a path (a list of segments).  All errors in the
source are `eyre::Report` values; the model distinguishes them by source,
which is what the spec's error taxonomy names:

  * `notFound`     — `tokio::fs::read` on a missing path (io `NotFound`);
  * `fsError`      — any other io failure (read on a directory, create with a
                     missing parent, `create_dir_all` across a file);
  * `utf8Error`    — `String::from_utf8` failure in `get_item`;
  * `invalidHash`  — `eyre!("Invalid Hash")` from `Item::check_hash`;
  * `pathConflict` — `eyre!("File exists at DB Directory")` from `open`;
  * `parseError`   — `serde_json` parse failure in `get_obj`. -/

inductive Err where
  | notFound
  | fsError
  | utf8Error
  | invalidHash
  | pathConflict
  | parseError
deriving DecidableEq

instance {e a : Type} [DecidableEq e] [DecidableEq a] : DecidableEq (Except e a) :=
  fun x y =>
    match x, y with
    | .error u, .error w =>
        if h : u = w then isTrue (by rw [h])
        else isFalse (by intro hc; injection hc; exact h (by assumption))
    | .ok u, .ok w =>
        if h : u = w then isTrue (by rw [h])
        else isFalse (by intro hc; injection hc; exact h (by assumption))
    | .error _, .ok _ => isFalse (fun hc => Except.noConfusion hc)
    | .ok _, .error _ => isFalse (fun hc => Except.noConfusion hc)

/-- A filesystem path, as a list of segments (each a list of code points). -/
abbrev Path : Type := List (List Nat)

/-- `Item` from `src/lib.rs` lines 58-61: a JSON object and its hash.
`json_utf8` holds the code points of the string (its UTF-8 bytes are
`utf8Encode json_utf8`). -/
structure Item where
  hash_b64 : List Nat
  json_utf8 : List Nat
deriving DecidableEq

/-- The filesystem state: which paths are directories, and the contents of
each file, newest first. -/
structure FsState where
  dirs : List Path
  files : List (Path × List Nat)
deriving DecidableEq

/-- First file entry at the path, if any. -/
def lookupFile : List (Path × List Nat) → Path → Option (List Nat)
  | [], _ => none
  | f :: tl, p => if f.1 = p then some f.2 else lookupFile tl p

def isDir (fs : FsState) (p : Path) : Bool := decide (p ∈ fs.dirs)

def fileExists (fs : FsState) (p : Path) : Bool := (lookupFile fs.files p).isSome

/-- `Path::try_exists`: true if the path is a directory or a file. -/
def tryExists (fs : FsState) (p : Path) : Bool := isDir fs p || fileExists fs p

/-- All nonempty prefixes of a path — the directories `create_dir_all`
ensures. -/
def pathUpTo (p : Path) : List Path :=
  (List.range p.length).map fun i => List.take (i + 1) p

/-- `std::fs::create_dir_all`: creates the directory and every missing
ancestor; fails with an io error if a file occupies any of them. -/
def create_dir_all (fs : FsState) (p : Path) : Except Err FsState :=
  if (pathUpTo p).any (fun q => fileExists fs q) then .error .fsError
  else .ok ⟨pathUpTo p ++ fs.dirs, fs.files⟩

/-- `Database` from `src/lib.rs` line 44: a root directory path. -/
structure Database where
  path : Path
deriving DecidableEq

/-- `Database::open` (`src/lib.rs` lines 69-83): if the path does not exist,
create it as a directory (with ancestors); then succeed exactly when the
path is a directory, else fail with the path-conflict error.  The filesystem
state is returned alongside so that "creates nothing" is expressible. -/
def Database.openDb (fs : FsState) (path : Path) :
    FsState × Except Err Database :=
  if tryExists fs path = false then
    match create_dir_all fs path with
    | .error e => (fs, .error e)
    | .ok fs2 =>
        if isDir fs2 path then (fs2, .ok ⟨path⟩)
        else (fs2, .error .pathConflict)
  else
    if isDir fs path then (fs, .ok ⟨path⟩)
    else (fs, .error .pathConflict)

/-- `Database::put_item` (`src/lib.rs` lines 86-100): write
`item.json_utf8.as_bytes()` to `root/item.hash_b64`, only if that path does
not already exist; `File::create` fails when the parent directory is
missing. -/
def Database.put_item (fs : FsState) (db : Database) (item : Item) :
    FsState × Except Err Unit :=
  if tryExists fs (db.path ++ [item.hash_b64]) then (fs, .ok ())
  else if isDir fs db.path then
    (⟨fs.dirs, (db.path ++ [item.hash_b64], utf8Encode item.json_utf8) :: fs.files⟩,
      .ok ())
  else (fs, .error .fsError)

/-- `mk_item` (`src/lib.rs` lines 200-209): canonical JCS bytes via
`serde_jcs::to_vec`, hash via `b64sha256`, string via `String::from_utf8`.
The JCS serializer is `serVal ∘ canon` (members sorted recursively); with
integer numbers it is total, so `serde_jcs`'s encoding failure cannot
arise in the model. -/
def mk_item (obj : Value) : Except Err Item :=
  match utf8Decode (utf8Encode (serVal (canon obj))) with
  | none => .error .utf8Error
  | some s => .ok ⟨b64sha256 (utf8Encode (serVal (canon obj))), s⟩

/-- `Database::put_obj` (`src/lib.rs` lines 103-111): `mk_item` then
`put_item`, returning the item. -/
def Database.put_obj (fs : FsState) (db : Database) (object : Value) :
    FsState × Except Err Item :=
  match mk_item object with
  | .error e => (fs, .error e)
  | .ok item =>
      match Database.put_item fs db item with
      | (fs2, .ok _) => (fs2, .ok item)
      | (fs2, .error e) => (fs2, .error e)

/-- `Item::check_hash` (`src/lib.rs` lines 163-171): the hash is valid iff
it equals `b64sha256` of the string's bytes. -/
def Item.check_hash (item : Item) : Except Err Unit :=
  if item.hash_b64 = b64sha256 (utf8Encode item.json_utf8) then .ok ()
  else .error .invalidHash

/-- `Database::get_item` (`src/lib.rs` lines 114-130): read the file at
`root/hash_b64` (`NotFound` when absent, an io error when it is a
directory), decode it as UTF-8, then verify the hash before returning. -/
def Database.get_item (fs : FsState) (db : Database) (hash_b64 : List Nat) :
    Except Err Item :=
  if isDir fs (db.path ++ [hash_b64]) then .error .fsError
  else
    match lookupFile fs.files (db.path ++ [hash_b64]) with
    | none => .error .notFound
    | some bytes =>
        match utf8Decode bytes with
        | none => .error .utf8Error
        | some s =>
            match Item.check_hash ⟨hash_b64, s⟩ with
            | .error e => .error e
            | .ok _ => .ok ⟨hash_b64, s⟩

/-- `Database::get_obj` (`src/lib.rs` lines 133-141): `get_item`, then parse
the string as JSON. -/
def Database.get_obj (fs : FsState) (db : Database) (hash_b64 : List Nat) :
    Except Err Value :=
  match Database.get_item fs db hash_b64 with
  | .error e => .error e
  | .ok item =>
      match fromStr item.json_utf8 with
      | none => .error .parseError
      | some v => .ok v

/-- The number of file entries at a path. -/
def countFiles (fs : FsState) (p : Path) : Nat :=
  fs.files.countP fun f => decide (f.1 = p)

/-! ## Support lemmas for the claims -/

/-- `mk_item` on a well-formed value: canonical JCS string, its digest as
address. -/
theorem mk_item_eq (v : Value) (h : wfB v = true) :
    mk_item v = .ok ⟨b64sha256 (utf8Encode (serVal (canon v))), serVal (canon v)⟩ := by
  unfold mk_item
  rw [utf8Decode_encode _ (serVal_valid (canon v) (wfB_canon v h))]

theorem lookupFile_none_count (files : List (Path × List Nat)) (p : Path)
    (h : lookupFile files p = none) :
    files.countP (fun f => decide (f.1 = p)) = 0 := by
  induction files with
  | nil => rfl
  | cons f tl ih =>
    unfold lookupFile at h
    by_cases hf : f.1 = p
    · rw [if_pos hf] at h
      simp at h
    · rw [if_neg hf] at h
      rw [List.countP_cons]
      simp [hf, ih h]

theorem map_slashToPlus_no_slash (l : List Nat) : 47 ∉ l.map slashToPlus := by
  intro hc
  rw [List.mem_map] at hc
  obtain ⟨x, _, hx⟩ := hc
  unfold slashToPlus at hx
  split at hx <;> omega

/-! ## The claims -/

/-- C1: for every byte sequence `b`, `b64sha256 b` is the standard base64
encoding with padding of the SHA-256 digest of `b` with every `/` replaced
by `+`; in particular the bytes of `Hello, World!` hash to the address
`3+1gIbsr1bCvZ2KQgJ7DpTGR3YHH9wpLKGiKNiGCmG8=`. -/
theorem C1_b64sha256_address (b : List Nat) :
    b64sha256 b = (base64Encode (sha256 b)).map slashToPlus
    ∧ b64sha256 (strCodes "Hello, World!")
        = strCodes "3+1gIbsr1bCvZ2KQgJ7DpTGR3YHH9wpLKGiKNiGCmG8=" :=
  ⟨rfl, by decide⟩

/-- C9: every address is exactly 44 characters (base64 with `=` padding of a
32-byte digest) and contains no `/`, so it is a single plain filename; the
store places the file at `root ++ [address]`, directly inside the root. -/
theorem C9_address_fs_safe (b : List Nat) :
    (b64sha256 b).length = 44 ∧ 47 ∉ b64sha256 b :=
  ⟨rfl, map_slashToPlus_no_slash _⟩

/-- C8: when no file or directory exists at the requested address under the
root, `get_obj` returns `notFound` — an error value distinct from the
integrity, parse and filesystem errors — and never a value. -/
theorem C8_get_missing_notFound (fs : FsState) (db : Database) (a : List Nat)
    (hd : isDir fs (db.path ++ [a]) = false)
    (hf : lookupFile fs.files (db.path ++ [a]) = none) :
    Database.get_obj fs db a = .error .notFound
    ∧ Err.notFound ≠ Err.invalidHash
    ∧ Err.notFound ≠ Err.parseError
    ∧ Err.notFound ≠ Err.fsError := by
  refine ⟨?_, by decide, by decide, by decide⟩
  unfold Database.get_obj Database.get_item
  simp [hd, hf]

theorem C8_get_missing_notFound_witness :
    isDir ⟨[], []⟩ (([] : Path) ++ [strCodes "A"]) = false
    ∧ Database.get_obj ⟨[], []⟩ ⟨[]⟩ (strCodes "A") = .error .notFound :=
  ⟨by decide, (C8_get_missing_notFound ⟨[], []⟩ ⟨[]⟩ (strCodes "A")
    (by decide) (by decide)).1⟩

/-- C10: a stored file whose bytes are not valid UTF-8 makes `get_item`
return the UTF-8 decoding error rather than an `Item`, before any hash
comparison — even if the digest of those bytes matches the requested
address, no item is returned. -/
theorem C10_nonUtf8_rejected (fs : FsState) (db : Database) (a bytes : List Nat)
    (hd : isDir fs (db.path ++ [a]) = false)
    (hf : lookupFile fs.files (db.path ++ [a]) = some bytes)
    (hu : utf8Decode bytes = none) :
    Database.get_item fs db a = .error .utf8Error
    ∧ ∀ it, Database.get_item fs db a ≠ .ok it := by
  have h1 : Database.get_item fs db a = .error .utf8Error := by
    unfold Database.get_item
    simp [hd, hf, hu]
  exact ⟨h1, fun it hc => by rw [h1] at hc; exact Except.noConfusion hc⟩

theorem C10_nonUtf8_rejected_witness :
    utf8Decode [255] = none
    ∧ b64sha256 [255] = b64sha256 [255]
    ∧ Database.get_item ⟨[], [([b64sha256 [255]], [255])]⟩ ⟨[]⟩ (b64sha256 [255])
        = .error .utf8Error :=
  ⟨by decide, rfl,
    (C10_nonUtf8_rejected ⟨[], [([b64sha256 [255]], [255])]⟩ ⟨[]⟩
      (b64sha256 [255]) [255] (by decide) (by decide) (by decide)).1⟩

/-- C2 as stated is false: a single byte flip that destroys UTF-8 validity
makes `get_item` fail with the UTF-8 decoding error, not the invalid-hash
(integrity) error.  The entry for `"a"` (canonical bytes `[34, 97, 34]`) is
stored, then its middle byte is flipped to `255`. -/
theorem C2_counterexample :
    Database.get_item ⟨[], [([b64sha256 [34, 97, 34]], [34, 255, 34])]⟩ ⟨[]⟩
        (b64sha256 [34, 97, 34]) = .error .utf8Error
    ∧ Err.utf8Error ≠ Err.invalidHash := by decide

/-- C2 (amended): whenever the bytes stored at an address have a digest
different from that address, `get_item` never returns an item and `get_obj`
never returns a value; when those bytes are valid UTF-8, the error is
exactly the invalid-hash (integrity) error.  (When they are not valid
UTF-8, the error is the UTF-8 decoding error instead — see the
counterexample.) -/
theorem C2_tamper_detected (fs : FsState) (db : Database) (a bytes : List Nat)
    (hd : isDir fs (db.path ++ [a]) = false)
    (hf : lookupFile fs.files (db.path ++ [a]) = some bytes)
    (hm : b64sha256 bytes ≠ a) :
    (∀ it, Database.get_item fs db a ≠ .ok it)
    ∧ (∀ w, Database.get_obj fs db a ≠ .ok w)
    ∧ (∀ s, utf8Decode bytes = some s →
        Database.get_item fs db a = .error .invalidHash) := by
  have hget : ∀ s, utf8Decode bytes = some s →
      Database.get_item fs db a = .error .invalidHash := by
    intro s hs
    obtain ⟨henc, -⟩ := utf8Decode_inv hs
    have hne : ¬(a = b64sha256 bytes) := fun hc => hm hc.symm
    unfold Database.get_item Item.check_hash
    simp [hd, hf, hs, henc, hne]
  have hnot : ∀ it, Database.get_item fs db a ≠ .ok it := by
    intro it hc
    match hu : utf8Decode bytes with
    | none =>
      have h1 : Database.get_item fs db a = .error .utf8Error := by
        unfold Database.get_item
        simp [hd, hf, hu]
      rw [h1] at hc
      exact Except.noConfusion hc
    | some s =>
      rw [hget s hu] at hc
      exact Except.noConfusion hc
  refine ⟨hnot, ?_, hget⟩
  intro w hc
  unfold Database.get_obj at hc
  match hg : Database.get_item fs db a with
  | .error e => rw [hg] at hc; exact Except.noConfusion hc
  | .ok it => exact hnot it hg

theorem C2_tamper_detected_witness :
    b64sha256 [34, 98, 34] ≠ b64sha256 [34, 97, 34]
    ∧ Database.get_item ⟨[], [([b64sha256 [34, 97, 34]], [34, 98, 34])]⟩ ⟨[]⟩
        (b64sha256 [34, 97, 34]) = .error .invalidHash :=
  ⟨by decide,
    (C2_tamper_detected ⟨[], [([b64sha256 [34, 97, 34]], [34, 98, 34])]⟩ ⟨[]⟩
      (b64sha256 [34, 97, 34]) [34, 98, 34]
      (by decide) (by decide) (by decide)).2.2 [34, 98, 34] (by decide)⟩

/-- C4: `put_item` writes the canonical bytes to the file named by the
address only when that file does not already exist, and is otherwise a
no-op on the state; hence putting the same value twice leaves the state of
the first put unchanged, with exactly one file at the address holding the
canonical bytes. -/
theorem C4_put_write_once (fs : FsState) (db : Database) (item : Item) (v : Value)
    (hwf : wfB v = true) (hroot : isDir fs db.path = true)
    (hfresh : tryExists fs
      (db.path ++ [b64sha256 (utf8Encode (serVal (canon v)))]) = false) :
    (tryExists fs (db.path ++ [item.hash_b64]) = true →
        Database.put_item fs db item = (fs, .ok ()))
    ∧ (∃ fs1 it, Database.put_obj fs db v = (fs1, .ok it)
        ∧ Database.put_obj fs1 db v = (fs1, .ok it)
        ∧ countFiles fs1 (db.path ++ [it.hash_b64]) = 1
        ∧ lookupFile fs1.files (db.path ++ [it.hash_b64])
            = some (utf8Encode (serVal (canon v)))) := by
  constructor
  · intro hex
    unfold Database.put_item
    rw [hex]
    simp
  · have hmk := mk_item_eq v hwf
    have hcount0 : countFiles fs
        (db.path ++ [b64sha256 (utf8Encode (serVal (canon v)))]) = 0 := by
      unfold tryExists fileExists at hfresh
      simp at hfresh
      unfold countFiles
      exact lookupFile_none_count _ _ (Option.isNone_iff_eq_none.mp (by
        simp [hfresh.2]))
    refine ⟨⟨fs.dirs, (db.path ++ [b64sha256 (utf8Encode (serVal (canon v)))],
        utf8Encode (serVal (canon v))) :: fs.files⟩,
      ⟨b64sha256 (utf8Encode (serVal (canon v))), serVal (canon v)⟩, ?_, ?_, ?_, ?_⟩
    · unfold Database.put_obj
      rw [hmk]
      simp only []
      unfold Database.put_item
      rw [hfresh]
      simp [hroot]
    · unfold Database.put_obj
      rw [hmk]
      simp only []
      unfold Database.put_item
      have hex : tryExists
          ⟨fs.dirs, (db.path ++ [b64sha256 (utf8Encode (serVal (canon v)))],
            utf8Encode (serVal (canon v))) :: fs.files⟩
          (db.path ++ [b64sha256 (utf8Encode (serVal (canon v)))]) = true := by
        unfold tryExists fileExists lookupFile
        simp
      rw [hex]
      simp
    · unfold countFiles at hcount0 ⊢
      rw [List.countP_cons]
      simp [hcount0]
    · unfold lookupFile
      simp

theorem C4_put_write_once_witness :
    wfB (.vstr [97]) = true
    ∧ isDir ⟨[[]], []⟩ (Database.path ⟨[]⟩) = true
    ∧ tryExists ⟨[[]], []⟩
        (([] : Path) ++ [b64sha256 (utf8Encode (serVal (canon (.vstr [97]))))]) = false
    ∧ (∃ fs1 it, Database.put_obj ⟨[[]], []⟩ ⟨[]⟩ (.vstr [97]) = (fs1, .ok it)
        ∧ Database.put_obj fs1 ⟨[]⟩ (.vstr [97]) = (fs1, .ok it)
        ∧ countFiles fs1 (([] : Path) ++ [it.hash_b64]) = 1
        ∧ lookupFile fs1.files (([] : Path) ++ [it.hash_b64])
            = some (utf8Encode (serVal (canon (.vstr [97]))))) :=
  ⟨by decide, by decide, by decide,
    (C4_put_write_once ⟨[[]], []⟩ ⟨[]⟩ ⟨[], []⟩ (.vstr [97])
      (by decide) (by decide) (by decide)).2⟩

/-- C6: every `Item` handed to a caller as valid — from `mk_item`, from
`put_obj`, or from `get_item` — satisfies the invariant
`hash_b64 = b64sha256 (bytes of json_utf8)`; an item violating the
invariant fails `check_hash` with the integrity error and is never returned
by `get_item`. -/
theorem C6_item_invariant :
    (∀ v it, mk_item v = .ok it →
        it.hash_b64 = b64sha256 (utf8Encode it.json_utf8))
    ∧ (∀ fs db v fs1 it, Database.put_obj fs db v = (fs1, .ok it) →
        it.hash_b64 = b64sha256 (utf8Encode it.json_utf8))
    ∧ (∀ fs db a it, Database.get_item fs db a = .ok it →
        it.hash_b64 = b64sha256 (utf8Encode it.json_utf8))
    ∧ (∀ it : Item, it.hash_b64 ≠ b64sha256 (utf8Encode it.json_utf8) →
        it.check_hash = .error .invalidHash
        ∧ ∀ fs db a, Database.get_item fs db a ≠ .ok it) := by
  have hmk : ∀ v it, mk_item v = .ok it →
      it.hash_b64 = b64sha256 (utf8Encode it.json_utf8) := by
    intro v it h
    unfold mk_item at h
    match hu : utf8Decode (utf8Encode (serVal (canon v))) with
    | none => rw [hu] at h; exact Except.noConfusion h
    | some s =>
      rw [hu] at h
      simp at h
      obtain ⟨henc, -⟩ := utf8Decode_inv hu
      rw [← h]
      simp [henc]
  have hget : ∀ fs db a it, Database.get_item fs db a = .ok it →
      it.hash_b64 = b64sha256 (utf8Encode it.json_utf8) := by
    intro fs db a it h
    unfold Database.get_item at h
    by_cases hd : isDir fs (db.path ++ [a]) = true
    · rw [if_pos hd] at h; exact Except.noConfusion h
    · rw [if_neg hd] at h
      match hf : lookupFile fs.files (db.path ++ [a]) with
      | none => rw [hf] at h; exact Except.noConfusion h
      | some bytes =>
        rw [hf] at h
        simp only [] at h
        match hu : utf8Decode bytes with
        | none => rw [hu] at h; exact Except.noConfusion h
        | some s =>
          rw [hu] at h
          simp only [] at h
          unfold Item.check_hash at h
          by_cases hh : a = b64sha256 (utf8Encode s)
          · rw [if_pos hh] at h
            simp at h
            rw [← h]
            exact hh
          · rw [if_neg hh] at h
            simp at h
  refine ⟨hmk, ?_, hget, ?_⟩
  · intro fs db v fs1 it h
    unfold Database.put_obj at h
    match hm : mk_item v with
    | .error e => rw [hm] at h; simp at h
    | .ok it0 =>
      rw [hm] at h
      simp only [] at h
      match hp : Database.put_item fs db it0 with
      | (fs2, .ok u) =>
          rw [hp] at h
          simp at h
          rw [← h.2]
          exact hmk v it0 hm
      | (fs2, .error e) =>
          rw [hp] at h
          simp at h
  · intro it hne
    have hch : it.check_hash = .error .invalidHash := by
      unfold Item.check_hash
      rw [if_neg hne]
    refine ⟨hch, ?_⟩
    intro fs db a hc
    exact hne (hget fs db a it hc)

theorem C6_item_invariant_witness :
    mk_item (.vstr [97]) = .ok ⟨b64sha256 [34, 97, 34], [34, 97, 34]⟩
    ∧ Item.hash_b64 ⟨b64sha256 [34, 97, 34], [34, 97, 34]⟩
        = b64sha256 (utf8Encode (Item.json_utf8 ⟨b64sha256 [34, 97, 34], [34, 97, 34]⟩)) :=
  ⟨by decide, C6_item_invariant.1 (.vstr [97]) ⟨b64sha256 [34, 97, 34], [34, 97, 34]⟩
    (by decide)⟩

/-- C7: `open` ensures the root exists as a directory: when nothing exists
at the path and no prefix of it is a file, it creates the directory and
every ancestor and returns the store, creating no file; when the path is
already a directory it returns the store with the state untouched; when a
file occupies the path it fails with the path-conflict error and changes
nothing. -/
theorem C7_open_behavior (fs : FsState) (path : Path) :
    (∀ content, isDir fs path = false →
        lookupFile fs.files path = some content →
        Database.openDb fs path = (fs, .error .pathConflict))
    ∧ (isDir fs path = true → Database.openDb fs path = (fs, .ok ⟨path⟩))
    ∧ (tryExists fs path = false → path ≠ [] →
        (∀ q ∈ pathUpTo path, fileExists fs q = false) →
        ∃ fs2, Database.openDb fs path = (fs2, .ok ⟨path⟩)
          ∧ isDir fs2 path = true
          ∧ (∀ q ∈ pathUpTo path, isDir fs2 q = true)
          ∧ fs2.files = fs.files) := by
  refine ⟨?_, ?_, ?_⟩
  · intro content hd hf
    have hex : tryExists fs path = true := by
      unfold tryExists fileExists
      simp [hf]
    unfold Database.openDb
    rw [hex]
    simp [hd]
  · intro hd
    have hex : tryExists fs path = true := by
      unfold tryExists
      simp [hd]
    unfold Database.openDb
    rw [hex]
    simp [hd]
  · intro hne hnil hnf
    have hcreate : create_dir_all fs path = .ok ⟨pathUpTo path ++ fs.dirs, fs.files⟩ := by
      unfold create_dir_all
      have : (pathUpTo path).any (fun q => fileExists fs q) = false := by
        rw [List.any_eq_false]
        intro q hq
        simp [hnf q hq]
      rw [this]
      simp
    have hmem : path ∈ pathUpTo path := by
      unfold pathUpTo
      rw [List.mem_map]
      refine ⟨path.length - 1, ?_, ?_⟩
      · rw [List.mem_range]
        cases path with
        | nil => exact absurd rfl hnil
        | cons a t => simp
      · have : path.length - 1 + 1 = path.length := by
          cases path with
          | nil => exact absurd rfl hnil
          | cons a t => simp
        rw [this, List.take_length]
    have hdir2 : isDir ⟨pathUpTo path ++ fs.dirs, fs.files⟩ path = true := by
      unfold isDir
      simp
      exact Or.inl hmem
    refine ⟨⟨pathUpTo path ++ fs.dirs, fs.files⟩, ?_, hdir2, ?_, rfl⟩
    · unfold Database.openDb
      rw [hne]
      simp only []
      rw [hcreate]
      simp [hdir2]
    · intro q hq
      unfold isDir
      simp
      exact Or.inl hq

theorem C7_open_behavior_witness :
    isDir ⟨[], [([strCodes "tmp", strCodes "somefile"], [1])]⟩
        [strCodes "tmp", strCodes "somefile"] = false
    ∧ lookupFile [([strCodes "tmp", strCodes "somefile"], [1])]
        [strCodes "tmp", strCodes "somefile"] = some [1]
    ∧ Database.openDb ⟨[], [([strCodes "tmp", strCodes "somefile"], [1])]⟩
        [strCodes "tmp", strCodes "somefile"]
        = (⟨[], [([strCodes "tmp", strCodes "somefile"], [1])]⟩,
            .error .pathConflict) :=
  ⟨by decide, by decide,
    (C7_open_behavior ⟨[], [([strCodes "tmp", strCodes "somefile"], [1])]⟩
      [strCodes "tmp", strCodes "somefile"]).1 [1] (by decide) (by decide)⟩

/-- C3: after `put_obj v` succeeds with some item, `get_obj` at that item's
address succeeds and returns a value structurally equal to `v` (the
canonical form of `v`: equal up to the order of object members). -/
theorem C3_round_trip (fs : FsState) (db : Database) (v : Value)
    (hv : wfB v = true)
    (hroot : isDir fs db.path = true)
    (hnd : isDir fs (db.path ++ [b64sha256 (utf8Encode (serVal (canon v)))]) = false)
    (hnf : lookupFile fs.files
      (db.path ++ [b64sha256 (utf8Encode (serVal (canon v)))]) = none) :
    ∃ fs1 it w, Database.put_obj fs db v = (fs1, .ok it)
      ∧ Database.get_obj fs1 db it.hash_b64 = .ok w
      ∧ StructEq w v := by
  have hmk := mk_item_eq v hv
  have hfresh : tryExists fs
      (db.path ++ [b64sha256 (utf8Encode (serVal (canon v)))]) = false := by
    unfold tryExists fileExists
    simp [hnd, hnf]
  refine ⟨⟨fs.dirs, (db.path ++ [b64sha256 (utf8Encode (serVal (canon v)))],
      utf8Encode (serVal (canon v))) :: fs.files⟩,
    ⟨b64sha256 (utf8Encode (serVal (canon v))), serVal (canon v)⟩,
    canon v, ?_, ?_, canon_structEq v⟩
  · unfold Database.put_obj
    rw [hmk]
    simp only []
    unfold Database.put_item
    rw [hfresh]
    simp [hroot]
  · have hnd2 : isDir ⟨fs.dirs, (db.path
        ++ [b64sha256 (utf8Encode (serVal (canon v)))],
        utf8Encode (serVal (canon v))) :: fs.files⟩
        (db.path ++ [b64sha256 (utf8Encode (serVal (canon v)))]) = false := hnd
    have hlook : lookupFile ((db.path ++ [b64sha256 (utf8Encode (serVal (canon v)))],
        utf8Encode (serVal (canon v))) :: fs.files)
        (db.path ++ [b64sha256 (utf8Encode (serVal (canon v)))])
        = some (utf8Encode (serVal (canon v))) := by
      unfold lookupFile
      simp
    have hdec : utf8Decode (utf8Encode (serVal (canon v)))
        = some (serVal (canon v)) :=
      utf8Decode_encode _ (serVal_valid (canon v) (wfB_canon v hv))
    unfold Database.get_obj Database.get_item Item.check_hash
    simp [hnd2, hlook, hdec, fromStr_serVal]

theorem C3_round_trip_witness :
    wfB (.vobj [([72, 101, 108, 108, 111], .vstr [87, 111, 114, 108, 100, 33])]) = true
    ∧ (∃ fs1 it w,
        Database.put_obj ⟨[[]], []⟩ ⟨[]⟩
          (.vobj [([72, 101, 108, 108, 111], .vstr [87, 111, 114, 108, 100, 33])])
          = (fs1, .ok it)
        ∧ Database.get_obj fs1 ⟨[]⟩ it.hash_b64 = .ok w
        ∧ StructEq w
          (.vobj [([72, 101, 108, 108, 111], .vstr [87, 111, 114, 108, 100, 33])])) :=
  ⟨by decide,
    C3_round_trip ⟨[[]], []⟩ ⟨[]⟩
      (.vobj [([72, 101, 108, 108, 111], .vstr [87, 111, 114, 108, 100, 33])])
      (by decide) (by decide) (by decide) (by decide)⟩

/-- C5: structurally equal well-formed values (equal up to object member
order) get the same address: putting one after the other leaves exactly one
file, the second put being a no-op; concretely, the objects with members
`b:2, a:1` and `a:1, b:2` yield identical addresses, equal to the digest of
the canonical bytes of the sorted form (the code points of
`{"a":1,"b":2}`). -/
theorem C5_dedup (fs : FsState) (db : Database) (v w : Value)
    (hv : wfB v = true) (hw : wfB w = true) (hse : StructEq v w)
    (hroot : isDir fs db.path = true)
    (hfresh : tryExists fs
      (db.path ++ [b64sha256 (utf8Encode (serVal (canon v)))]) = false) :
    (∃ fs1 it it2, Database.put_obj fs db v = (fs1, .ok it)
        ∧ Database.put_obj fs1 db w = (fs1, .ok it2)
        ∧ it.hash_b64 = it2.hash_b64
        ∧ countFiles fs1 (db.path ++ [it.hash_b64]) = 1)
    ∧ (mk_item (.vobj [([98], .vnum 2), ([97], .vnum 1)])).map Item.hash_b64
        = (mk_item (.vobj [([97], .vnum 1), ([98], .vnum 2)])).map Item.hash_b64
    ∧ (mk_item (.vobj [([97], .vnum 1), ([98], .vnum 2)])).map Item.hash_b64
        = .ok (b64sha256 (utf8Encode
            [123, 34, 97, 34, 58, 49, 44, 34, 98, 34, 58, 50, 125])) := by
  refine ⟨?_, by decide, by decide⟩
  have hcanon : canon v = canon w := structEq_canon hse hv hw
  have hmkv := mk_item_eq v hv
  have hmkw := mk_item_eq w hw
  rw [← hcanon] at hmkw
  have hcount0 : countFiles fs
      (db.path ++ [b64sha256 (utf8Encode (serVal (canon v)))]) = 0 := by
    unfold tryExists fileExists at hfresh
    simp at hfresh
    unfold countFiles
    exact lookupFile_none_count _ _ (Option.isNone_iff_eq_none.mp (by
      simp [hfresh.2]))
  refine ⟨⟨fs.dirs, (db.path ++ [b64sha256 (utf8Encode (serVal (canon v)))],
      utf8Encode (serVal (canon v))) :: fs.files⟩,
    ⟨b64sha256 (utf8Encode (serVal (canon v))), serVal (canon v)⟩,
    ⟨b64sha256 (utf8Encode (serVal (canon v))), serVal (canon v)⟩, ?_, ?_, rfl, ?_⟩
  · unfold Database.put_obj
    rw [hmkv]
    simp only []
    unfold Database.put_item
    rw [hfresh]
    simp [hroot]
  · unfold Database.put_obj
    rw [hmkw]
    simp only []
    unfold Database.put_item
    have hex : tryExists
        ⟨fs.dirs, (db.path ++ [b64sha256 (utf8Encode (serVal (canon v)))],
          utf8Encode (serVal (canon v))) :: fs.files⟩
        (db.path ++ [b64sha256 (utf8Encode (serVal (canon v)))]) = true := by
      unfold tryExists fileExists lookupFile
      simp
    rw [hex]
    simp
  · unfold countFiles at hcount0 ⊢
    rw [List.countP_cons]
    simp [hcount0]

theorem C5_dedup_witness :
    wfB (.vobj [([98], .vnum 2), ([97], .vnum 1)]) = true
    ∧ (∃ fs1 it it2,
        Database.put_obj ⟨[[]], []⟩ ⟨[]⟩
          (.vobj [([98], .vnum 2), ([97], .vnum 1)]) = (fs1, .ok it)
        ∧ Database.put_obj fs1 ⟨[]⟩
          (.vobj [([97], .vnum 1), ([98], .vnum 2)]) = (fs1, .ok it2)
        ∧ it.hash_b64 = it2.hash_b64
        ∧ countFiles fs1 (([] : Path) ++ [it.hash_b64]) = 1) :=
  ⟨by decide,
    (C5_dedup ⟨[[]], []⟩ ⟨[]⟩
      (.vobj [([98], .vnum 2), ([97], .vnum 1)])
      (.vobj [([97], .vnum 1), ([98], .vnum 2)])
      (by decide) (by decide)
      (.obj (List.Perm.swap ([97], Value.vnum 1) ([98], Value.vnum 2) [])
        (.cons (.num 1) (.cons (.num 2) .nil)))
      (by decide) (by decide)).1⟩

end LocalJcsStore
